import Mathlib

/-!
Verification of the `kvs` log-structured key-value store.

The development shallowly embeds the storage engine of `src/kvs.rs`,
`src/utils.rs` and `src/command.rs`.  Files, open file handles and the
directory are modelled explicitly: the Rust code clones file descriptors
(`File::try_clone`), so a reader and the writer of the active generation
share one seek offset, and `fs::remove_file` unlinks a path while open
handles keep the inode alive.  The model therefore keeps
  * `inodes`  : inode id to byte content (bytes are `Char`s),
  * `descs`   : open file description id to (inode, shared offset),
  * `links`   : directory entry, generation number to inode id.
The record codec (serde_json) is an external crate and out of scope per
the specification; it is modelled from the spec as a self-delimiting
encoding with the framing the engine relies on (stream-position deltas).
All machine integers are `Nat`; the one place the source wraps
(`usize::wrapping_add`) is modelled by `wadd` with an explicit `% 2^64`.
-/

namespace Kvs

/-- Modelled usize width: the engine targets 64-bit platforms. -/
def USIZE : Nat := 2 ^ 64

/-- Source constant `SIZE_THRESHOLD` from `kvs.rs`. -/
def SIZE_THRESHOLD : Nat := 1024 * 1024

/-- Model of `usize::wrapping_add`. -/
def wadd (a b : Nat) : Nat := (a + b) % USIZE

/-- Association-list lookup, first match wins (models `HashMap::get`). -/
def lookupA {κ α : Type} [DecidableEq κ] : List (κ × α) → κ → Option α
  | [], _ => none
  | (k, v) :: rest, k' => if k' = k then some v else lookupA rest k'

/-- Association-list insert, replacing the first binding (models `HashMap::insert`). -/
def insertA {κ α : Type} [DecidableEq κ] : List (κ × α) → κ → α → List (κ × α)
  | [], k, v => [(k, v)]
  | (k0, v0) :: rest, k, v =>
    if k = k0 then (k, v) :: rest else (k0, v0) :: insertA rest k v

/-- Association-list erase of the first binding (models `HashMap::remove`). -/
def eraseA {κ α : Type} [DecidableEq κ] : List (κ × α) → κ → List (κ × α)
  | [], _ => []
  | (k0, v0) :: rest, k => if k = k0 then rest else (k0, v0) :: eraseA rest k

/-- Keys of an association list. -/
def keysA {κ α : Type} (l : List (κ × α)) : List κ := l.map Prod.fst

/-- The `Command` enum of `command.rs`. -/
inductive Command where
  | Set (key value : String)
  | Remove (key : String)
deriving DecidableEq

/-- `Command::kind` of `command.rs`. -/
def Command.kind : Command → String
  | .Set _ _ => "set"
  | .Remove _ => "rm"

/-- The `CommandPointer` struct of `command.rs`; `CommandPointer::new(gen, s..e)`
stores `start = s` and `length = e - s`. -/
structure CommandPointer where
  gen : Nat
  start : Nat
  length : Nat
deriving DecidableEq

/-- The `KvsError` enum of `error.rs` (payloads of the I/O and serde
variants are irrelevant to control flow and dropped). -/
inductive KvsError where
  | IoErr
  | Serde
  | MissingLogfile (gen : Nat)
  | UnexpectedCommand (expected got : String)
deriving DecidableEq

instance {ε α : Type} [DecidableEq ε] [DecidableEq α] : DecidableEq (Except ε α) :=
  fun a b =>
    match a, b with
    | .ok x, .ok y =>
      if h : x = y then .isTrue (by rw [h]) else .isFalse (by intro hc; cases hc; exact h rfl)
    | .error x, .error y =>
      if h : x = y then .isTrue (by rw [h]) else .isFalse (by intro hc; cases hc; exact h rfl)
    | .ok _, .error _ => .isFalse (by intro hc; cases hc)
    | .error _, .ok _ => .isFalse (by intro hc; cases hc)

/-- Modelled from the spec: character escaping of the external record codec
(quote and backslash are escaped; any other character stands for itself). -/
def escapeChar (c : Char) : List Char :=
  if c = '"' ∨ c = '\\' then ['\\', c] else [c]

/-- Modelled from the spec: string escaping of the external record codec. -/
def escapeStr (l : List Char) : List Char := (l.map escapeChar).flatten

/-- Modelled from the spec: `encode(record)` of the external record codec
(the byte length is derived by callers from stream-position deltas). -/
def encodeC : Command → List Char
  | .Set k v =>
    "\x7b\"Set\":[\"".data ++ escapeStr k.data ++ "\",\"".data ++
      escapeStr v.data ++ "\"]\x7d".data
  | .Remove k =>
    "\x7b\"Remove\":\"".data ++ escapeStr k.data ++ "\"\x7d".data

/-- Modelled from the spec: decode the body of an encoded string after its
opening quote, returning the decoded characters and the remaining input. -/
def parseStrBody : List Char → Option (List Char × List Char)
  | [] => none
  | '\\' :: c :: rest =>
    if c = '"' ∨ c = '\\' then
      match parseStrBody rest with
      | some (s, r) => some (c :: s, r)
      | none => none
    else none
  | '"' :: rest => some ([], rest)
  | c :: rest =>
    match parseStrBody rest with
    | some (s, r) => some (c :: s, r)
    | none => none

/-- Modelled from the spec: decode one encoded string (expects the opening quote). -/
def parseStr : List Char → Option (List Char × List Char)
  | '"' :: rest => parseStrBody rest
  | _ => none

/-- Consume an expected literal byte sequence. -/
def expectLit (lit l : List Char) : Option (List Char) :=
  if lit.isPrefixOf l then some (l.drop lit.length) else none

def litSetOpen : List Char := "\x7b\"Set\":[".data
def litRemOpen : List Char := "\x7b\"Remove\":".data
def litComma : List Char := ",".data
def litSetClose : List Char := "]\x7d".data
def litRemClose : List Char := "\x7d".data

/-- Modelled from the spec: decode exactly one record from the head of a byte
stream, returning it together with the rest of the stream (the decoder can
locate the byte offset immediately after a decoded record). -/
def parseCommand (l : List Char) : Option (Command × List Char) :=
  match expectLit litSetOpen l with
  | some r1 =>
    match parseStr r1 with
    | some (k, r2) =>
      match expectLit litComma r2 with
      | some r3 =>
        match parseStr r3 with
        | some (v, r4) =>
          match expectLit litSetClose r4 with
          | some r5 => some (Command.Set (String.mk k) (String.mk v), r5)
          | none => none
        | none => none
      | none => none
    | none => none
  | none =>
    match expectLit litRemOpen l with
    | some r1 =>
      match parseStr r1 with
      | some (k, r2) =>
        match expectLit litRemClose r2 with
        | some r3 => some (Command.Remove (String.mk k), r3)
        | none => none
      | none => none
    | none => none

/-- Modelled from the spec: `decode_stream`, yielding records in file order
paired with the byte length each one occupies.  The fuel argument only bounds
the recursion; every successful `parseCommand` step consumes at least one
byte, so `length + 1` fuel (as supplied by `parseAll`) never runs out. -/
def parseAllAux : Nat → List Char → Option (List (Command × Nat))
  | _, [] => some []
  | 0, _ :: _ => none
  | fuel + 1, c :: rest =>
    match parseCommand (c :: rest) with
    | none => none
    | some (cmd, r) =>
      match parseAllAux fuel r with
      | none => none
      | some t => some ((cmd, (c :: rest).length - r.length) :: t)

/-- Modelled from the spec: decode a whole byte stream into records with
their byte lengths; `none` is the `Corrupt` condition. -/
def parseAll (l : List Char) : Option (List (Command × Nat)) :=
  parseAllAux (l.length + 1) l

/-- An open file description: inode and shared seek offset (what a cloned
`File` shares with the original). -/
structure Desc where
  inode : Nat
  off : Nat
deriving DecidableEq

/-- The filesystem state seen by the engine: inode contents, open file
descriptions, and the directory mapping generation numbers to inodes. -/
structure Fs where
  inodes : List (Nat × List Char)
  descs : List (Nat × Desc)
  links : List (Nat × Nat)
  nextId : Nat
deriving DecidableEq

/-- A fresh, empty store directory. -/
def emptyFs : Fs := ⟨[], [], [], 0⟩

/-- Bytes obtained by seeking to `start` and reading at most `len` bytes
(`Read::take` semantics: a short file yields fewer bytes). -/
def readRange (content : List Char) (start len : Nat) : List Char :=
  (content.drop start).take len

def NUL : Char := Char.ofNat 0

/-- Overwrite-in-place file write at a given offset (files opened without
`append`, as here, write wherever the shared offset points). -/
def writeAt (content : List Char) (pos : Nat) (bytes : List Char) : List Char :=
  content.take pos ++ List.replicate (pos - content.length) NUL ++ bytes ++
    content.drop (pos + bytes.length)

/-- `get_logfile`/`new_logfile` of `utils.rs`: open read+write, create if
missing, never truncate; the offset of the new description is 0.  Returns
the new description id. -/
def openCreateAt (fs : Fs) (g : Nat) : Fs × Nat :=
  match lookupA fs.links g with
  | some i =>
    let d := fs.nextId
    ({ fs with descs := insertA fs.descs d ⟨i, 0⟩, nextId := fs.nextId + 1 }, d)
  | none =>
    let i := fs.nextId
    let d := fs.nextId + 1
    ({ fs with inodes := insertA fs.inodes i [],
               links := insertA fs.links g i,
               descs := insertA fs.descs d ⟨i, 0⟩,
               nextId := fs.nextId + 2 }, d)

/-- Total on-disk bytes: the sizes of all files reachable from the directory. -/
def diskBytes (fs : Fs) : Nat :=
  fs.links.foldr (fun gi acc => ((lookupA fs.inodes gi.2).getD []).length + acc) 0

/-- Write `bytes` through description `d` (whose current lookup results are
passed in): the inode content is overwritten at the shared offset and the
offset advances.  Models the buffered writer as write-through; `flush` is
then a no-op, which is faithful for every property stated here because the
code flushes before every durability-relevant point. -/
def writeThrough (fs : Fs) (d : Nat) (dsc : Desc) (content bytes : List Char) : Fs :=
  { fs with inodes := insertA fs.inodes dsc.inode (writeAt content dsc.off bytes),
            descs := insertA fs.descs d ⟨dsc.inode, dsc.off + bytes.length⟩ }

/-- The `KvStore` struct of `kvs.rs`.  `path` is implicit (the model has a
single directory); `readers` maps generation to description id and
`writerDesc` is the active writer's description. -/
structure KvStore where
  index : List (String × CommandPointer)
  readers : List (Nat × Nat)
  writerDesc : Nat
  curr_gen : Nat
  stale_bytes : Nat
deriving DecidableEq

/-- `KvStore::get` of `kvs.rs`: index lookup, reader seek, bounded read,
decode one record which must be a `Set`.  Absent keys return `none` without
touching any handle.  The triple is (store, fs, result); the store value is
never changed by `get`, only the shared seek offset moves. -/
def getOp (s : KvStore) (fs : Fs) (k : String) :
    KvStore × Fs × Except KvsError (Option String) :=
  match lookupA s.index k with
  | none => (s, fs, Except.ok none)
  | some p =>
    match lookupA s.readers p.gen with
    | none => (s, fs, Except.error (KvsError.MissingLogfile p.gen))
    | some d =>
      match lookupA fs.descs d with
      | none => (s, fs, Except.error KvsError.IoErr)
      | some dsc =>
        match lookupA fs.inodes dsc.inode with
        | none => (s, fs, Except.error KvsError.IoErr)
        | some content =>
          let bytes := readRange content p.start p.length
          let fs1 := { fs with
            descs := insertA fs.descs d ⟨dsc.inode, p.start + bytes.length⟩ }
          match parseCommand bytes with
          | some (Command.Set _ v, []) => (s, fs1, Except.ok (some v))
          | some (Command.Remove _, []) =>
            (s, fs1, Except.error (KvsError.UnexpectedCommand "set" "rm"))
          | _ => (s, fs1, Except.error KvsError.Serde)

/-- Result component of `get`, for comparing observable answers. -/
def getVal (s : KvStore) (fs : Fs) (k : String) : Except KvsError (Option String) :=
  (getOp s fs k).2.2

/-- The copy loop of `KvStore::clean_stale_data` (kvs.rs lines 218-232):
for every index entry, seek its source reader, copy exactly the pointed-to
bytes into the compaction writer, and repoint the entry at the compaction
generation.  Returns the updated fs, the (partially, on error) rewritten
index, the final target offset and the outcome. -/
def cleanFold (readers : List (Nat × Nat)) (cleanDesc cleanGen : Nat) :
    Fs → List (String × CommandPointer) → Nat →
    Fs × List (String × CommandPointer) × Nat × Except KvsError Unit
  | fs, [], off => (fs, [], off, Except.ok ())
  | fs, (k, p) :: rest, off =>
    match lookupA readers p.gen with
    | none => (fs, (k, p) :: rest, off, Except.error (KvsError.MissingLogfile p.gen))
    | some d =>
      match lookupA fs.descs d with
      | none => (fs, (k, p) :: rest, off, Except.error KvsError.IoErr)
      | some dsc =>
        match lookupA fs.inodes dsc.inode with
        | none => (fs, (k, p) :: rest, off, Except.error KvsError.IoErr)
        | some content =>
          let bytes := readRange content p.start p.length
          let fs1 := { fs with
            descs := insertA fs.descs d ⟨dsc.inode, p.start + bytes.length⟩ }
          match lookupA fs1.descs cleanDesc with
          | none => (fs1, (k, p) :: rest, off, Except.error KvsError.IoErr)
          | some cdsc =>
            match lookupA fs1.inodes cdsc.inode with
            | none => (fs1, (k, p) :: rest, off, Except.error KvsError.IoErr)
            | some ccontent =>
              let fs2 := writeThrough fs1 cleanDesc cdsc ccontent bytes
              let p' : CommandPointer := ⟨cleanGen, off, bytes.length⟩
              match cleanFold readers cleanDesc cleanGen fs2 rest (off + bytes.length) with
              | (fs3, rest', off', res) => (fs3, (k, p') :: rest', off', res)

/-- The deletion loop of `clean_stale_data` (kvs.rs lines 254-260):
`fs::remove_file` for every stale generation; a missing path is an I/O
error that aborts the loop with earlier removals already done. -/
def delLoop : Fs → List Nat → Fs × Except KvsError Unit
  | fs, [] => (fs, Except.ok ())
  | fs, g :: rest =>
    match lookupA fs.links g with
    | none => (fs, Except.error KvsError.IoErr)
    | some _ => delLoop { fs with links := eraseA fs.links g } rest

/-- `KvStore::clean_stale_data` of `kvs.rs`.  Note the faithful reproduction
of line 240: when the compaction output exceeds the threshold the code opens
the logfile at `self.curr_gen` (the OLD active generation's path), not at
`new_gen`, registers its reader under `new_gen`, and then the deletion loop
unlinks that very path. -/
def cleanOp (s : KvStore) (fs : Fs) : KvStore × Fs × Except KvsError Nat :=
  let stale := s.stale_bytes
  let cleanGen := wadd s.curr_gen 1
  let (fs1, cleanDesc) := openCreateAt fs cleanGen
  match cleanFold s.readers cleanDesc cleanGen fs1 s.index 0 with
  | (fs2, index1, _, Except.error e) => ({ s with index := index1 }, fs2, Except.error e)
  | (fs2, index1, _, Except.ok ()) =>
    match lookupA fs2.descs cleanDesc with
    | none => ({ s with index := index1 }, fs2, Except.error KvsError.IoErr)
    | some cdsc =>
      match lookupA fs2.inodes cdsc.inode with
      | none => ({ s with index := index1 }, fs2, Except.error KvsError.IoErr)
      | some ccontent =>
        let readers0 : List (Nat × Nat) := [(cleanGen, cleanDesc)]
        let sfs :=
          if ccontent.length > SIZE_THRESHOLD then
            let newGen := wadd s.curr_gen 2
            let fsd := openCreateAt fs2 s.curr_gen
            ({ s with index := index1, readers := insertA readers0 newGen fsd.2,
                      writerDesc := fsd.2, curr_gen := newGen }, fsd.1)
          else
            ({ s with index := index1, readers := readers0,
                      writerDesc := cleanDesc, curr_gen := cleanGen }, fs2)
        match delLoop sfs.2 (keysA s.readers) with
        | (fs4, Except.error e) => (sfs.1, fs4, Except.error e)
        | (fs4, Except.ok ()) => ({ sfs.1 with stale_bytes := 0 }, fs4, Except.ok stale)

/-- `KvStore::set` of `kvs.rs`: record the writer position, append the
encoded `Set`, index the position delta, count a superseded pointer as
stale, and compact when the stale counter exceeds the threshold. -/
def setOp (s : KvStore) (fs : Fs) (k v : String) :
    KvStore × Fs × Except KvsError Unit :=
  match lookupA fs.descs s.writerDesc with
  | none => (s, fs, Except.error KvsError.IoErr)
  | some dsc =>
    match lookupA fs.inodes dsc.inode with
    | none => (s, fs, Except.error KvsError.IoErr)
    | some content =>
      let start := dsc.off
      let enc := encodeC (Command.Set k v)
      let fs1 := writeThrough fs s.writerDesc dsc content enc
      let stop := start + enc.length
      let p : CommandPointer := ⟨s.curr_gen, start, stop - start⟩
      let stale1 := s.stale_bytes +
        (match lookupA s.index k with | some o => o.length | none => 0)
      let s1 := { s with index := insertA s.index k p, stale_bytes := stale1 }
      if stale1 > SIZE_THRESHOLD then
        match cleanOp s1 fs1 with
        | (s2, fs2, Except.error e) => (s2, fs2, Except.error e)
        | (s2, fs2, Except.ok _) => (s2, fs2, Except.ok ())
      else (s1, fs1, Except.ok ())

/-- `KvStore::remove` of `kvs.rs`: append the tombstone unconditionally;
if the key was indexed, drop it, add the OLD pointer's length to the stale
counter (the tombstone's own length is not counted here), maybe compact,
and return `true`; otherwise return `false`. -/
def removeOp (s : KvStore) (fs : Fs) (k : String) :
    KvStore × Fs × Except KvsError Bool :=
  match lookupA fs.descs s.writerDesc with
  | none => (s, fs, Except.error KvsError.IoErr)
  | some dsc =>
    match lookupA fs.inodes dsc.inode with
    | none => (s, fs, Except.error KvsError.IoErr)
    | some content =>
      let enc := encodeC (Command.Remove k)
      let fs1 := writeThrough fs s.writerDesc dsc content enc
      match lookupA s.index k with
      | some old =>
        let stale1 := s.stale_bytes + old.length
        let s1 := { s with index := eraseA s.index k, stale_bytes := stale1 }
        if stale1 > SIZE_THRESHOLD then
          match cleanOp s1 fs1 with
          | (s2, fs2, Except.error e) => (s2, fs2, Except.error e)
          | (s2, fs2, Except.ok _) => (s2, fs2, Except.ok true)
        else (s1, fs1, Except.ok true)
      | none => (s, fs1, Except.ok false)

/-- `KvStore::flush`: with a write-through writer model this is a no-op. -/
def flushOp (s : KvStore) (fs : Fs) : KvStore × Fs × Except KvsError Unit :=
  (s, fs, Except.ok ())

/-- One step of `replay` of `utils.rs` (the loop body, lines 58-79): the
accumulator is (current start offset, index, stale bytes). -/
def replayStep (g : Nat) (acc : Nat × List (String × CommandPointer) × Nat)
    (cl : Command × Nat) : Nat × List (String × CommandPointer) × Nat :=
  let start := acc.1
  let index := acc.2.1
  let stale := acc.2.2
  let stop := start + cl.2
  match cl.1 with
  | Command.Set k _ =>
    let p : CommandPointer := ⟨g, start, stop - start⟩
    let stale' := stale +
      (match lookupA index k with | some o => o.length | none => 0)
    (stop, insertA index k p, stale')
  | Command.Remove k =>
    let stale' := stale +
      (match lookupA index k with | some o => o.length | none => 0) + (stop - start)
    (stop, eraseA index k, stale')

/-- `replay` of `utils.rs`: decode the whole logfile and fold the records
into the index, returning the updated index and the stale byte count. -/
def replay (content : List Char) (index : List (String × CommandPointer))
    (g : Nat) : Except KvsError (List (String × CommandPointer) × Nat) :=
  match parseAll content with
  | none => Except.error KvsError.Serde
  | some cls =>
    let r := cls.foldl (replayStep g) (0, index, 0)
    Except.ok (r.2.1, r.2.2)

/-- Insert into a sorted list (ascending). -/
def insSorted (n : Nat) : List Nat → List Nat
  | [] => [n]
  | m :: rest => if n ≤ m then n :: m :: rest else m :: insSorted n rest

/-- Ascending insertion sort; `Vec::sort_unstable` produces the same list
(the sorted permutation of a multiset of `Nat`s is unique). -/
def sortIns (l : List Nat) : List Nat := l.foldr insSorted []

/-- Active-generation selection of `KvStore::open` (kvs.rs lines 61-70):
reuse the last generation when its file size is at most the threshold,
else `last.wrapping_add(1)`; generation 1 when none exist. -/
def chooseCurrGen (fs : Fs) : Except KvsError Nat :=
  match (sortIns (keysA fs.links)).getLast? with
  | some lastG =>
    match lookupA fs.links lastG with
    | none => Except.error KvsError.IoErr
    | some i =>
      match lookupA fs.inodes i with
      | none => Except.error KvsError.IoErr
      | some content =>
        Except.ok (if content.length ≤ SIZE_THRESHOLD then lastG else wadd lastG 1)
  | none => Except.ok 1

/-- The replay loop of `KvStore::open` (kvs.rs lines 76-82): open a reader
per generation, replay it, merge the index and sum stale bytes. -/
def openFold : Fs → List Nat → List (String × CommandPointer) →
    List (Nat × Nat) → Nat →
    Except KvsError (Fs × List (String × CommandPointer) × List (Nat × Nat) × Nat)
  | fs, [], index, readers, stale => Except.ok (fs, index, readers, stale)
  | fs, g :: rest, index, readers, stale =>
    match lookupA fs.links g with
    | none => Except.error KvsError.IoErr
    | some i =>
      match lookupA fs.inodes i with
      | none => Except.error KvsError.IoErr
      | some content =>
        match replay content index g with
        | Except.error e => Except.error e
        | Except.ok ist =>
          let d := fs.nextId
          let fs1 := { fs with descs := insertA fs.descs d ⟨i, content.length⟩,
                               nextId := fs.nextId + 1 }
          openFold fs1 rest ist.1 (insertA readers g d) (stale + ist.2)

/-- `KvStore::open` of `kvs.rs` on a directory state: list generations in
ascending order, pick the active generation, replay every generation, then
open (create if missing) the active logfile, whose cloned handle serves as
both the writer and the reader of the active generation. -/
def openOp (fs : Fs) : Except KvsError (KvStore × Fs) :=
  let gens := sortIns (keysA fs.links)
  match chooseCurrGen fs with
  | Except.error e => Except.error e
  | Except.ok curr =>
    match openFold fs gens [] [] 0 with
    | Except.error e => Except.error e
    | Except.ok r =>
      let fsd := openCreateAt r.1 curr
      Except.ok ({ index := r.2.1, readers := insertA r.2.2.1 curr fsd.2,
                   writerDesc := fsd.2, curr_gen := curr,
                   stale_bytes := r.2.2.2 }, fsd.1)

/-- A directory entry as seen by `get_generation_list`. -/
structure DirEntry where
  name : String
  isFile : Bool
deriving DecidableEq

/-- Split a file name at its LAST dot: `some (before, after)` or `none`
when there is no dot. -/
def lastDotSplit : List Char → Option (List Char × List Char)
  | [] => none
  | c :: rest =>
    match lastDotSplit rest with
    | some (b, a) => some (c :: b, a)
    | none => if c = '.' then some ([], rest) else none

/-- `Path::extension` on a bare file name: the part after the final dot,
unless the name starts with that dot (hidden files have no extension). -/
def pathExt (name : List Char) : Option (List Char) :=
  match lastDotSplit name with
  | some (before, after) => if before = [] then none else some after
  | none => none

/-- `str::trim_end_matches(".log")` on a reversed character list:
repeatedly strip the reversed suffix. -/
def trimRev : List Char → List Char
  | 'g' :: 'o' :: 'l' :: '.' :: rest => trimRev rest
  | l => l

/-- `str::trim_end_matches(".log")`. -/
def trimEndLog (l : List Char) : List Char := (trimRev l.reverse).reverse

/-- Numeric value of a digit list. -/
def digitsVal (l : List Char) : Nat :=
  l.foldl (fun a c => a * 10 + (c.toNat - 48)) 0

/-- `str::parse::<usize>`: optional leading `+`, at least one ASCII digit,
nothing else, and the value must fit in 64 bits (overflow is an error). -/
def parseUsize (s : String) : Option Nat :=
  let l := match s.data with
    | '+' :: r => r
    | l => l
  if l = [] then none
  else if l.all Char.isDigit then
    let v := digitsVal l
    if v < USIZE then some v else none
  else none

/-- `get_generation_list` of `utils.rs`: keep file entries with extension
`log`, strip every trailing `.log` from the full file name, parse the rest
as `usize` discarding failures, and sort ascending. -/
def getGenerationList (entries : List DirEntry) : List Nat :=
  sortIns ((entries.filter
      (fun e => e.isFile && pathExt e.name.data = some "log".data)).filterMap
    (fun e => parseUsize (String.mk (trimEndLog e.name.data))))

/-- Stated from the spec for comparison (claim C9): the generation numbers
of files whose name is literally a base-10 integer followed by `.log`. -/
def canonicalGens (entries : List DirEntry) : List Nat :=
  sortIns (entries.filterMap (fun e =>
    if e.isFile then
      match e.name.data.reverse with
      | 'g' :: 'o' :: 'l' :: '.' :: restRev =>
        let stem := restRev.reverse
        if stem ≠ [] ∧ stem.all Char.isDigit then some (digitsVal stem) else none
      | _ => none
    else none))

/-- Sum of the indexed pointers' lengths: one segment's worth of live data. -/
def liveLen (index : List (String × CommandPointer)) : Nat :=
  (index.map (fun kp => kp.2.length)).sum

/-- The bytes a pointer denotes, read through the reader of its generation
(empty when any handle in the chain is missing). -/
def sliceOf (readers : List (Nat × Nat)) (fs : Fs) (p : CommandPointer) : List Char :=
  match lookupA readers p.gen with
  | none => []
  | some d =>
    match lookupA fs.descs d with
    | none => []
    | some dsc =>
      match lookupA fs.inodes dsc.inode with
      | none => []
      | some c => readRange c p.start p.length

/-- Concatenation of all indexed records' bytes, in index order: the exact
content compaction writes into its target file. -/
def blobOf (readers : List (Nat × Nat)) (fs : Fs)
    (entries : List (String × CommandPointer)) : List Char :=
  (entries.map (fun kp => sliceOf readers fs kp.2)).flatten

/-- Every id the filesystem hands out is below `nextId`, so freshly allocated
inode and description ids never collide with existing ones. -/
def idsBound (fs : Fs) : Prop :=
  (∀ i c, lookupA fs.inodes i = some c → i < fs.nextId) ∧
    (∀ d dsc, lookupA fs.descs d = some dsc → d < fs.nextId ∧ dsc.inode < fs.nextId) ∧
    (∀ g i, lookupA fs.links g = some i → i < fs.nextId)

/-- A pointer whose full read chain (reader, description, inode) resolves and
does not alias the compaction target's description `cd` or inode `ci`. -/
def ChainOk (readers : List (Nat × Nat)) (fs : Fs) (ci cd : Nat)
    (p : CommandPointer) : Prop :=
  ∃ d dsc c, lookupA readers p.gen = some d ∧ d ≠ cd ∧
    lookupA fs.descs d = some dsc ∧ dsc.inode ≠ ci ∧
    lookupA fs.inodes dsc.inode = some c

/-- The engine's internal consistency invariant, established by `open` on a
fresh directory and preserved by every operation (including failed ones):
every indexed pointer's generation has an open reader; indexed generations
are on disk or are the active generation; the reader set is exactly the
active generation, or (after the oversized-compaction branch) the previous
and the active generation; all handle chains resolve; ids are bounded. -/
structure Inv (s : KvStore) (fs : Fs) : Prop where
  idxNodup : (keysA s.index).Nodup
  ptrReader : ∀ k p, lookupA s.index k = some p → (lookupA s.readers p.gen).isSome
  ptrLinkedOrCurr : ∀ k p, lookupA s.index k = some p →
    (lookupA fs.links p.gen).isSome ∨ p.gen = s.curr_gen
  currLt : s.curr_gen < USIZE
  form : (∃ d i, s.readers = [(s.curr_gen, d)] ∧ lookupA fs.links s.curr_gen = some i) ∨
    (∃ p d1 d2 i, s.readers = [(p, d1), (s.curr_gen, d2)] ∧ wadd p 1 = s.curr_gen ∧
      p < USIZE ∧ lookupA fs.links p = some i ∧ lookupA fs.links s.curr_gen = none)
  linksSingle : ∃ g i, fs.links = [(g, i)]
  readerDesc : ∀ g d, lookupA s.readers g = some d → (lookupA fs.descs d).isSome
  fsChains : ∀ d dsc, lookupA fs.descs d = some dsc → (lookupA fs.inodes dsc.inode).isSome
  linkChains : ∀ g i, lookupA fs.links g = some i → (lookupA fs.inodes i).isSome
  ids : idsBound fs

/-- The store produced by `open` on a fresh directory. -/
def st0 : KvStore := ⟨[], [(1, 1)], 1, 1, 0⟩

/-- The filesystem produced by `open` on a fresh directory: one empty file
`1.log` and one shared description serving reader and writer. -/
def fs0 : Fs := ⟨[(0, [])], [(1, ⟨0, 0⟩)], [(1, 0)], 2⟩

/-- Drop the result component of an operation, keeping the state. -/
def stepOf {α : Type} (r : KvStore × Fs × Except KvsError α) : KvStore × Fs :=
  (r.1, r.2.1)

/-- One byte more than the size threshold. -/
def bigN : Nat := 1048577

/-- A store holding `bigN` bytes of live data in generation 1 (one pointer
covering the whole file), as arises from filling a fresh store past the
threshold: used to exercise the oversized-compaction branch concretely. -/
def fabS : KvStore := ⟨[("a", ⟨1, 0, bigN⟩)], [(1, 1)], 1, 1, 0⟩

/-- The filesystem backing `fabS`: `1.log` holds `bigN` bytes. -/
def fabFs : Fs := ⟨[(0, List.replicate bigN 'a')], [(1, ⟨0, bigN⟩)], [(1, 0)], 2⟩

/-- Store states reachable from `open` on a fresh (empty) directory by the
public operations.  Failed operations are included: a Rust caller keeps the
mutated `&mut self` even when an operation returns `Err`. -/
inductive Reach : KvStore → Fs → Prop where
  | openEmpty (s : KvStore) (fs : Fs) :
      openOp emptyFs = Except.ok (s, fs) → Reach s fs
  | stepSet (s : KvStore) (fs : Fs) (k v : String) : Reach s fs →
      Reach (setOp s fs k v).1 (setOp s fs k v).2.1
  | stepGet (s : KvStore) (fs : Fs) (k : String) : Reach s fs →
      Reach (getOp s fs k).1 (getOp s fs k).2.1
  | stepRemove (s : KvStore) (fs : Fs) (k : String) : Reach s fs →
      Reach (removeOp s fs k).1 (removeOp s fs k).2.1
  | stepClean (s : KvStore) (fs : Fs) : Reach s fs →
      Reach (cleanOp s fs).1 (cleanOp s fs).2.1

/-- A plain directory, as `KvStore::open` receives it: no file is open (no
descriptions), and every directory entry points at an existing file. -/
def DirFs (fs : Fs) : Prop :=
  fs.descs = [] ∧ ∀ gi ∈ fs.links, (lookupA fs.inodes gi.2).isSome

/-- Store states reachable from a successful `open` on ANY directory —
fresh or holding arbitrarily many generations — by the public operations.
Failed operations are included: a Rust caller keeps the mutated `&mut self`
even when an operation returns `Err`. -/
inductive ReachG : KvStore → Fs → Prop where
  | openDir (fsd : Fs) (s : KvStore) (fs : Fs) : DirFs fsd →
      openOp fsd = Except.ok (s, fs) → ReachG s fs
  | stepSet (s : KvStore) (fs : Fs) (k v : String) : ReachG s fs →
      ReachG (setOp s fs k v).1 (setOp s fs k v).2.1
  | stepGet (s : KvStore) (fs : Fs) (k : String) : ReachG s fs →
      ReachG (getOp s fs k).1 (getOp s fs k).2.1
  | stepRemove (s : KvStore) (fs : Fs) (k : String) : ReachG s fs →
      ReachG (removeOp s fs k).1 (removeOp s fs k).2.1
  | stepClean (s : KvStore) (fs : Fs) : ReachG s fs →
      ReachG (cleanOp s fs).1 (cleanOp s fs).2.1

/-- The reader-availability invariant, stated for stores opened over ANY
directory: every indexed entry's generation has an open reader, the active
generation has one, and every open handle chain (reader description and its
inode, every description's inode, every linked inode) resolves.  Unlike
`Inv` it tracks no shape of the reader or link sets, so it covers reopened
multi-generation stores. -/
structure InvG (s : KvStore) (fs : Fs) : Prop where
  ptrReader : ∀ kp ∈ s.index, (lookupA s.readers kp.2.gen).isSome
  currReader : (lookupA s.readers s.curr_gen).isSome
  readerDesc : ∀ gd ∈ s.readers, (lookupA fs.descs gd.2).isSome
  fsChains : ∀ dd ∈ fs.descs, (lookupA fs.inodes dd.2.inode).isSome
  linkChains : ∀ gi ∈ fs.links, (lookupA fs.inodes gi.2).isSome

/-- A directory holding generations `0` and `2^64 - 1`: the extreme legal
file names.  `0.log` holds one encoded `Set` record, the last generation is
empty. -/
def fsW : Fs :=
  ⟨[(0, encodeC (Command.Set "k" "v")), (1, [])], [], [(0, 0), (USIZE - 1, 1)], 2⟩

/-- The store `open` builds on `fsW`: generation `2^64 - 1` is reused as
active (its file is small), the index points into generation 0. -/
def sW : KvStore :=
  ⟨[("k", ⟨0, 0, 17⟩)], [(0, 2), (USIZE - 1, 4)], 4, USIZE - 1, 0⟩

/-- The filesystem after `open` on `fsW`: readers for generations 0 and
`2^64 - 1`, plus the cloned writer handle. -/
def fsW1 : Fs :=
  ⟨[(0, encodeC (Command.Set "k" "v")), (1, [])],
   [(2, ⟨0, 17⟩), (3, ⟨1, 0⟩), (4, ⟨1, 0⟩)], [(0, 0), (USIZE - 1, 1)], 5⟩

/-! Association-list and modular-arithmetic toolkit. -/

theorem lookupA_nil {κ α : Type} [DecidableEq κ] (k : κ) :
    lookupA ([] : List (κ × α)) k = none := rfl

theorem lookupA_cons {κ α : Type} [DecidableEq κ] (k0 : κ) (v0 : α)
    (l : List (κ × α)) (k : κ) :
    lookupA ((k0, v0) :: l) k = if k = k0 then some v0 else lookupA l k := rfl

theorem lookupA_insertA {κ α : Type} [DecidableEq κ] (l : List (κ × α))
    (k k' : κ) (v : α) :
    lookupA (insertA l k v) k' = if k' = k then some v else lookupA l k' := by
  induction l with
  | nil => simp [insertA, lookupA_cons, lookupA_nil]
  | cons hd tl ih =>
    obtain ⟨k0, v0⟩ := hd
    by_cases hk : k = k0
    · subst hk
      simp only [insertA, if_pos rfl]
      by_cases hk' : k' = k
      · simp [lookupA_cons, hk']
      · simp [lookupA_cons, hk']
    · simp only [insertA, if_neg hk]
      by_cases hk' : k' = k0
      · subst hk'
        have hne : ¬k' = k := fun hc => hk (hc ▸ rfl)
        simp [lookupA_cons, hne]
      · simp [lookupA_cons, hk', ih]

theorem lookupA_eraseA_ne {κ α : Type} [DecidableEq κ] (l : List (κ × α))
    (k k' : κ) (h : k' ≠ k) :
    lookupA (eraseA l k) k' = lookupA l k' := by
  induction l with
  | nil => rfl
  | cons hd tl ih =>
    obtain ⟨k0, v0⟩ := hd
    by_cases hk : k = k0
    · subst hk
      simp [eraseA, lookupA_cons, if_neg h]
    · simp only [eraseA, if_neg hk, lookupA_cons, ih]

theorem insertA_of_lookup_none {κ α : Type} [DecidableEq κ] (l : List (κ × α))
    (k : κ) (v : α) (h : lookupA l k = none) : insertA l k v = l ++ [(k, v)] := by
  induction l with
  | nil => rfl
  | cons hd tl ih =>
    obtain ⟨k0, v0⟩ := hd
    rw [lookupA_cons] at h
    by_cases hk : k = k0
    · simp [hk] at h
    · simp only [insertA, if_neg hk, List.cons_append]
      rw [ih (by simpa [hk] using h)]

theorem mem_insertA {κ α : Type} [DecidableEq κ] (l : List (κ × α))
    (k : κ) (v : α) (pr : κ × α) (h : pr ∈ insertA l k v) :
    pr ∈ l ∨ pr = (k, v) := by
  induction l with
  | nil => simpa [insertA] using h
  | cons hd tl ih =>
    obtain ⟨k0, v0⟩ := hd
    by_cases hk : k = k0
    · subst hk
      simp only [insertA, if_true, eq_self_iff_true, List.mem_cons] at h
      rcases h with h | h
      · exact Or.inr h
      · exact Or.inl (List.mem_cons_of_mem _ h)
    · simp only [insertA, if_neg hk, List.mem_cons] at h
      rcases h with h | h
      · exact Or.inl (h ▸ List.mem_cons_self _ _)
      · rcases ih h with h' | h'
        · exact Or.inl (List.mem_cons_of_mem _ h')
        · exact Or.inr h'

theorem mem_eraseA {κ α : Type} [DecidableEq κ] (l : List (κ × α))
    (k : κ) (pr : κ × α) (h : pr ∈ eraseA l k) : pr ∈ l := by
  induction l with
  | nil => simp [eraseA] at h
  | cons hd tl ih =>
    obtain ⟨k0, v0⟩ := hd
    by_cases hk : k = k0
    · subst hk
      simp only [eraseA, if_pos rfl] at h
      exact List.mem_cons_of_mem _ h
    · simp only [eraseA, if_neg hk, List.mem_cons] at h
      rcases h with h | h
      · exact h ▸ List.mem_cons_self _ _
      · exact List.mem_cons_of_mem _ (ih h)

theorem lookupA_eq_none_of_not_mem {κ α : Type} [DecidableEq κ]
    (l : List (κ × α)) (k : κ) (h : k ∉ keysA l) : lookupA l k = none := by
  induction l with
  | nil => rfl
  | cons hd tl ih =>
    obtain ⟨k0, v0⟩ := hd
    simp only [keysA, List.map_cons, List.mem_cons, not_or] at h
    rw [lookupA_cons, if_neg h.1]
    exact ih h.2

theorem lookupA_eraseA_self_of_nodup {κ α : Type} [DecidableEq κ]
    (l : List (κ × α)) (k : κ) (h : (keysA l).Nodup) :
    lookupA (eraseA l k) k = none := by
  induction l with
  | nil => rfl
  | cons hd tl ih =>
    obtain ⟨k0, v0⟩ := hd
    simp only [keysA, List.map_cons, List.nodup_cons] at h
    by_cases hk : k = k0
    · subst hk
      simp only [eraseA, if_pos rfl]
      exact lookupA_eq_none_of_not_mem tl k h.1
    · simp only [eraseA, if_neg hk, lookupA_cons, if_neg hk]
      exact ih h.2

theorem lookupA_eraseA_some {κ α : Type} [DecidableEq κ] (l : List (κ × α))
    (k k' : κ) (v : α) (hnd : (keysA l).Nodup)
    (h : lookupA (eraseA l k) k' = some v) : lookupA l k' = some v := by
  by_cases hk : k' = k
  · subst hk
    rw [lookupA_eraseA_self_of_nodup l k' hnd] at h
    exact absurd h (by simp)
  · rwa [lookupA_eraseA_ne l k k' hk] at h

theorem keysA_insertA_sub {κ α : Type} [DecidableEq κ] (l : List (κ × α))
    (k : κ) (v : α) : ∀ g ∈ keysA (insertA l k v), g ∈ keysA l ∨ g = k := by
  intro g hg
  simp only [keysA, List.mem_map] at hg
  obtain ⟨pr, hpr, hfst⟩ := hg
  rcases mem_insertA l k v pr hpr with h | h
  · refine Or.inl ?_
    simp only [keysA, List.mem_map]
    exact ⟨pr, h, hfst⟩
  · exact Or.inr (by rw [← hfst, h])

theorem nodup_keysA_insertA {κ α : Type} [DecidableEq κ] (l : List (κ × α))
    (k : κ) (v : α) (h : (keysA l).Nodup) : (keysA (insertA l k v)).Nodup := by
  induction l with
  | nil => simp [insertA, keysA]
  | cons hd tl ih =>
    obtain ⟨k0, v0⟩ := hd
    simp only [keysA, List.map_cons, List.nodup_cons] at h
    by_cases hk : k = k0
    · subst hk
      simpa [insertA, keysA, List.nodup_cons] using h
    · simp only [insertA, if_neg hk, keysA, List.map_cons, List.nodup_cons]
      refine ⟨fun hc => ?_, ih h.2⟩
      rcases keysA_insertA_sub tl k v k0 (by simpa [keysA] using hc) with h' | h'
      · exact h.1 (by simpa [keysA] using h')
      · exact hk h'.symm

theorem keysA_eraseA_sub {κ α : Type} [DecidableEq κ] (l : List (κ × α))
    (k : κ) : ∀ g ∈ keysA (eraseA l k), g ∈ keysA l := by
  intro g hg
  simp only [keysA, List.mem_map] at hg ⊢
  obtain ⟨pr, hpr, hfst⟩ := hg
  exact ⟨pr, mem_eraseA l k pr hpr, hfst⟩

theorem nodup_keysA_eraseA {κ α : Type} [DecidableEq κ] (l : List (κ × α))
    (k : κ) (h : (keysA l).Nodup) : (keysA (eraseA l k)).Nodup := by
  induction l with
  | nil => simp [eraseA, keysA]
  | cons hd tl ih =>
    obtain ⟨k0, v0⟩ := hd
    simp only [keysA, List.map_cons, List.nodup_cons] at h
    by_cases hk : k = k0
    · subst hk
      simp only [eraseA, if_true, eq_self_iff_true]
      exact h.2
    · simp only [eraseA, if_neg hk, keysA, List.map_cons, List.nodup_cons]
      exact ⟨fun hc => h.1 (keysA_eraseA_sub tl k k0 hc), ih h.2⟩

theorem USIZE_pos : 0 < USIZE := by norm_num [USIZE]

theorem wadd_lt (a b : Nat) : wadd a b < USIZE := Nat.mod_lt _ USIZE_pos

theorem wadd_small_ne (a b : Nat) (hb1 : 0 < b) (hb2 : b < USIZE)
    (h : a < USIZE) : wadd a b ≠ a := by
  intro hc
  unfold wadd at hc
  rcases Nat.lt_or_ge (a + b) USIZE with h1 | h1
  · rw [Nat.mod_eq_of_lt h1] at hc
    omega
  · have h2 : a + b - USIZE < USIZE := by omega
    rw [Nat.mod_eq_sub_mod h1, Nat.mod_eq_of_lt h2] at hc
    omega

theorem wadd_one_ne (a : Nat) (h : a < USIZE) : wadd a 1 ≠ a :=
  wadd_small_ne a 1 (by omega) (by norm_num [USIZE]) h

theorem wadd_two_ne (a : Nat) (h : a < USIZE) : wadd a 2 ≠ a :=
  wadd_small_ne a 2 (by omega) (by norm_num [USIZE]) h

theorem wadd_wadd_one (a : Nat) : wadd (wadd a 1) 1 = wadd a 2 := by
  unfold wadd
  rw [Nat.mod_add_mod]

/-! Sorting lemmas for `sortIns`. -/

theorem mem_insSorted (n m : Nat) (l : List Nat) :
    m ∈ insSorted n l ↔ m = n ∨ m ∈ l := by
  induction l with
  | nil => simp [insSorted]
  | cons hd tl ih =>
    by_cases h : n ≤ hd
    · simp [insSorted, if_pos h]
    · simp only [insSorted, if_neg h, List.mem_cons, ih]
      tauto

theorem sorted_insSorted (n : Nat) (l : List Nat) (h : l.Sorted (· ≤ ·)) :
    (insSorted n l).Sorted (· ≤ ·) := by
  induction l with
  | nil => simp [insSorted]
  | cons hd tl ih =>
    rw [List.sorted_cons] at h
    by_cases hle : n ≤ hd
    · rw [insSorted, if_pos hle, List.sorted_cons]
      refine ⟨fun b hb => ?_, by rw [List.sorted_cons]; exact h⟩
      rcases List.mem_cons.mp hb with hb | hb
      · omega
      · exact le_trans hle (h.1 b hb)
    · rw [insSorted, if_neg hle, List.sorted_cons]
      refine ⟨fun b hb => ?_, ih h.2⟩
      rcases (mem_insSorted n b tl).mp hb with hb | hb
      · omega
      · exact h.1 b hb

theorem sorted_sortIns (l : List Nat) : (sortIns l).Sorted (· ≤ ·) := by
  induction l with
  | nil => simp [sortIns]
  | cons hd tl ih => exact sorted_insSorted hd (sortIns tl) ih

theorem mem_sortIns (l : List Nat) (m : Nat) : m ∈ sortIns l ↔ m ∈ l := by
  induction l with
  | nil => simp [sortIns]
  | cons hd tl ih =>
    simp only [sortIns, List.foldr_cons, mem_insSorted, List.mem_cons]
    rw [show List.foldr insSorted [] tl = sortIns tl from rfl, ih]

/-! Byte-slice and compaction-fold lemmas. -/

theorem writeAt_append (c b : List Char) : writeAt c c.length b = c ++ b := by
  simp [writeAt]

theorem readRange_append_exact (c b r : List Char) :
    readRange (c ++ (b ++ r)) c.length b.length = b := by
  rw [readRange, List.drop_left, List.take_left]

theorem readRange_length_le (c : List Char) (s n : Nat) :
    (readRange c s n).length ≤ n := by
  rw [readRange, List.length_take]
  exact Nat.min_le_left _ _

theorem blobOf_nil (readers : List (Nat × Nat)) (fs : Fs) :
    blobOf readers fs [] = [] := rfl

theorem blobOf_cons (readers : List (Nat × Nat)) (fs : Fs) (k : String)
    (p : CommandPointer) (rest : List (String × CommandPointer)) :
    blobOf readers fs ((k, p) :: rest) =
      sliceOf readers fs p ++ blobOf readers fs rest := by
  simp [blobOf]

theorem sliceOf_eq_of_chain (readers : List (Nat × Nat)) (fs : Fs)
    (p : CommandPointer) (d : Nat) (dsc : Desc) (c : List Char)
    (h1 : lookupA readers p.gen = some d) (h2 : lookupA fs.descs d = some dsc)
    (h3 : lookupA fs.inodes dsc.inode = some c) :
    sliceOf readers fs p = readRange c p.start p.length := by
  simp [sliceOf, h1, h2, h3]

theorem sliceOf_congr (readers : List (Nat × Nat)) (fs fs' : Fs) (ci cd : Nat)
    (p : CommandPointer) (hch : ChainOk readers fs ci cd p)
    (hi : ∀ i, i ≠ ci → lookupA fs'.inodes i = lookupA fs.inodes i)
    (hd : ∀ d, d ≠ cd →
      (lookupA fs'.descs d).map Desc.inode = (lookupA fs.descs d).map Desc.inode) :
    sliceOf readers fs' p = sliceOf readers fs p := by
  obtain ⟨d, dsc, c, h1, hne, h2, hni, h3⟩ := hch
  have hmap := hd d hne
  rw [h2] at hmap
  cases hdl : lookupA fs'.descs d with
  | none => rw [hdl] at hmap; cases hmap
  | some dsc' =>
    rw [hdl] at hmap
    simp at hmap
    have hinode : dsc'.inode = dsc.inode := hmap
    rw [sliceOf_eq_of_chain readers fs' p d dsc' c h1 hdl
      (by rw [hinode, hi dsc.inode hni, h3]),
      sliceOf_eq_of_chain readers fs p d dsc c h1 h2 h3]

theorem chainOk_congr (readers : List (Nat × Nat)) (fs fs' : Fs) (ci cd : Nat)
    (p : CommandPointer) (hch : ChainOk readers fs ci cd p)
    (hi : ∀ i, i ≠ ci → lookupA fs'.inodes i = lookupA fs.inodes i)
    (hd : ∀ d, d ≠ cd →
      (lookupA fs'.descs d).map Desc.inode = (lookupA fs.descs d).map Desc.inode) :
    ChainOk readers fs' ci cd p := by
  obtain ⟨d, dsc, c, h1, hne, h2, hni, h3⟩ := hch
  have hmap := hd d hne
  rw [h2] at hmap
  cases hdl : lookupA fs'.descs d with
  | none => rw [hdl] at hmap; cases hmap
  | some dsc' =>
    rw [hdl] at hmap
    simp at hmap
    have hinode : dsc'.inode = dsc.inode := hmap
    exact ⟨d, dsc', c, h1, hne, hdl, by rw [hinode]; exact hni,
      by rw [hinode, hi dsc.inode hni, h3]⟩

theorem blobOf_congr (readers : List (Nat × Nat)) (fs fs' : Fs) (ci cd : Nat)
    (entries : List (String × CommandPointer))
    (hch : ∀ kp ∈ entries, ChainOk readers fs ci cd kp.2)
    (hi : ∀ i, i ≠ ci → lookupA fs'.inodes i = lookupA fs.inodes i)
    (hd : ∀ d, d ≠ cd →
      (lookupA fs'.descs d).map Desc.inode = (lookupA fs.descs d).map Desc.inode) :
    blobOf readers fs' entries = blobOf readers fs entries := by
  induction entries with
  | nil => rfl
  | cons hd' tl ih =>
    obtain ⟨k, p⟩ := hd'
    rw [blobOf_cons, blobOf_cons,
      sliceOf_congr readers fs fs' ci cd p (hch (k, p) (List.mem_cons_self _ _)) hi hd,
      ih (fun kp hkp => hch kp (List.mem_cons_of_mem _ hkp))]

theorem lookupA_of_mem_nodup {κ α : Type} [DecidableEq κ] (l : List (κ × α))
    (k : κ) (v : α) (hnd : (keysA l).Nodup) (h : (k, v) ∈ l) :
    lookupA l k = some v := by
  induction l with
  | nil => cases h
  | cons hd tl ih =>
    obtain ⟨k0, v0⟩ := hd
    simp only [keysA, List.map_cons, List.nodup_cons] at hnd
    rcases List.mem_cons.mp h with h | h
    · injection h with h1 h2
      subst h1; subst h2
      simp [lookupA_cons]
    · have hmem : k ∈ keysA tl := by
        simp only [keysA, List.mem_map]
        exact ⟨(k, v), h, rfl⟩
      have hk : k ≠ k0 := fun hc => hnd.1 (hc ▸ hmem)
      rw [lookupA_cons, if_neg hk]
      exact ih hnd.2 h

theorem lookupA_forall2 {κ α β : Type} [DecidableEq κ]
    {R : (κ × α) → (κ × β) → Prop} (hkey : ∀ a b, R a b → b.1 = a.1) :
    ∀ (l : List (κ × α)) (l' : List (κ × β)), List.Forall₂ R l l' → ∀ k,
      (lookupA l k = none ∧ lookupA l' k = none) ∨
      ∃ p p', lookupA l k = some p ∧ lookupA l' k = some p' ∧ R (k, p) (k, p') := by
  intro l l' h
  induction h with
  | nil => exact fun k => Or.inl ⟨rfl, rfl⟩
  | cons hab htl ih =>
    rename_i a b tl tl'
    intro k
    obtain ⟨ka, va⟩ := a
    obtain ⟨kb, vb⟩ := b
    have hk : kb = ka := hkey _ _ hab
    subst hk
    by_cases hka : k = kb
    · subst hka
      exact Or.inr ⟨va, vb, by simp [lookupA_cons], by simp [lookupA_cons], hab⟩
    · rw [lookupA_cons, lookupA_cons, if_neg hka, if_neg hka]
      exact ih k

theorem keysA_forall2 {κ α β : Type}
    {R : (κ × α) → (κ × β) → Prop} (hkey : ∀ a b, R a b → b.1 = a.1) :
    ∀ (l : List (κ × α)) (l' : List (κ × β)), List.Forall₂ R l l' →
      keysA l' = keysA l := by
  intro l l' h
  induction h with
  | nil => rfl
  | cons hab htl ih =>
    simp only [keysA, List.map_cons] at ih ⊢
    rw [ih, hkey _ _ hab]

theorem forall2_imp_mem {α β : Type} (R S : α → β → Prop) :
    ∀ l l', List.Forall₂ R l l' → (∀ a ∈ l, ∀ b, R a b → S a b) →
      List.Forall₂ S l l' := by
  intro l l' h
  induction h with
  | nil => exact fun _ => List.Forall₂.nil
  | cons hab htl ih =>
    intro himp
    exact List.Forall₂.cons (himp _ (List.mem_cons_self _ _) _ hab)
      (ih fun a ha b hr => himp a (List.mem_cons_of_mem _ ha) b hr)

/-- Relation between an index entry before compaction and its rewritten
form: same key, generation is the compaction target, the new pointer reads
back (from the compaction file `whole`) exactly the bytes the old pointer
denoted. -/
def CleanRel (readers : List (Nat × Nat)) (fs : Fs) (cg : Nat) (whole : List Char)
    (kp kp' : String × CommandPointer) : Prop :=
  kp'.1 = kp.1 ∧ kp'.2.gen = cg ∧ kp'.2.length = (sliceOf readers fs kp.2).length ∧
    kp'.2.length ≤ kp.2.length ∧
    readRange whole kp'.2.start kp'.2.length = sliceOf readers fs kp.2

/-- Master lemma for the compaction copy loop: when the target description
`cd` appends to inode `ci` holding `cache` and every entry's read chain
resolves without aliasing the target, the loop succeeds, appends exactly the
indexed bytes to the target, leaves every other inode untouched, and
repoints every entry so it reads back the same bytes. -/
theorem cleanFold_spec (readers : List (Nat × Nat)) (cd cg ci : Nat)
    (entries : List (String × CommandPointer)) :
    ∀ fs off cache,
    lookupA fs.descs cd = some ⟨ci, off⟩ →
    lookupA fs.inodes ci = some cache →
    cache.length = off →
    (∀ kp ∈ entries, ChainOk readers fs ci cd kp.2) →
    ∃ fs' entries',
      cleanFold readers cd cg fs entries off =
        (fs', entries', off + (blobOf readers fs entries).length, Except.ok ()) ∧
      lookupA fs'.descs cd = some ⟨ci, off + (blobOf readers fs entries).length⟩ ∧
      lookupA fs'.inodes ci = some (cache ++ blobOf readers fs entries) ∧
      (∀ i, i ≠ ci → lookupA fs'.inodes i = lookupA fs.inodes i) ∧
      (∀ d, d ≠ cd →
        (lookupA fs'.descs d).map Desc.inode = (lookupA fs.descs d).map Desc.inode) ∧
      fs'.links = fs.links ∧ fs'.nextId = fs.nextId ∧
      List.Forall₂
        (CleanRel readers fs cg (cache ++ blobOf readers fs entries)) entries entries' := by
  induction entries with
  | nil =>
    intro fs off cache hcd hci hlen hch
    refine ⟨fs, [], ?_⟩
    simp [cleanFold, blobOf_nil, hcd, hci]
  | cons hd tl ih =>
    intro fs off cache hcd hci hlen hch
    obtain ⟨k, p⟩ := hd
    obtain ⟨d, dsc, c, h1, hne, h2, hni, h3⟩ := hch (k, p) (List.mem_cons_self _ _)
    have h1' : lookupA readers p.gen = some d := h1
    have hnecd : ¬cd = d := fun hc => hne hc.symm
    set bytes := readRange c p.start p.length with hbytes
    have hslice : sliceOf readers fs p = bytes := sliceOf_eq_of_chain readers fs p d dsc c h1 h2 h3
    -- the two filesystem updates of one loop iteration
    set fs1 : Fs :=
      { fs with descs := insertA fs.descs d ⟨dsc.inode, p.start + bytes.length⟩ } with hfs1
    have h4 : lookupA fs1.descs cd = some ⟨ci, off⟩ := by
      rw [hfs1]
      simp only [lookupA_insertA]
      rw [if_neg hnecd]
      exact hcd
    have h5 : lookupA fs1.inodes ci = some cache := hci
    set fs2 : Fs := writeThrough fs1 cd ⟨ci, off⟩ cache bytes with hfs2
    have hwrote : writeAt cache off bytes = cache ++ bytes := by
      rw [← hlen, writeAt_append]
    -- chain facts about fs2 relative to fs
    have hi2 : ∀ i, i ≠ ci → lookupA fs2.inodes i = lookupA fs.inodes i := by
      intro i hic
      simp only [hfs2, writeThrough, lookupA_insertA]
      rw [if_neg hic]
    have hd2 : ∀ e, e ≠ cd →
        (lookupA fs2.descs e).map Desc.inode = (lookupA fs.descs e).map Desc.inode := by
      intro e hec
      simp only [hfs2, writeThrough, lookupA_insertA]
      rw [if_neg hec]
      by_cases hed : e = d
      · subst hed
        simp [h2]
      · rw [if_neg hed]
    have hch2 : ∀ kp ∈ tl, ChainOk readers fs2 ci cd kp.2 := fun kp hkp =>
      chainOk_congr readers fs fs2 ci cd kp.2
        (hch kp (List.mem_cons_of_mem _ hkp)) hi2 hd2
    have hcd2 : lookupA fs2.descs cd = some ⟨ci, off + bytes.length⟩ := by
      simp [hfs2, writeThrough, lookupA_insertA]
    have hci2 : lookupA fs2.inodes ci = some (cache ++ bytes) := by
      simp [hfs2, writeThrough, lookupA_insertA, hwrote]
    have hlen2 : (cache ++ bytes).length = off + bytes.length := by
      rw [List.length_append, hlen]
    obtain ⟨fs3, entries', hfold, hcd3, hci3, hi3, hd3, hlinks3, hnext3, hrel3⟩ :=
      ih fs2 (off + bytes.length) (cache ++ bytes) hcd2 hci2 hlen2 hch2
    have hblob2 : blobOf readers fs2 tl = blobOf readers fs tl :=
      blobOf_congr readers fs fs2 ci cd tl
        (fun kp hkp => hch kp (List.mem_cons_of_mem _ hkp)) hi2 hd2
    have hblobAll : blobOf readers fs ((k, p) :: tl) = bytes ++ blobOf readers fs tl := by
      rw [blobOf_cons, hslice]
    have hwholeEq : (cache ++ bytes) ++ blobOf readers fs2 tl =
        cache ++ blobOf readers fs ((k, p) :: tl) := by
      rw [hblob2, hblobAll, List.append_assoc]
    have hoffAll : (off + bytes.length) + (blobOf readers fs2 tl).length =
        off + (blobOf readers fs ((k, p) :: tl)).length := by
      rw [hblob2, hblobAll, List.length_append, Nat.add_assoc]
    refine ⟨fs3, (k, ⟨cg, off, bytes.length⟩) :: entries', ?_, ?_, ?_, ?_, ?_, ?_, ?_, ?_⟩
    · show cleanFold readers cd cg fs ((k, p) :: tl) off = _
      simp only [cleanFold, h1', h2, h3, h4, h5]
      rw [← hfs2, hfold, hoffAll]
    · rw [hcd3, hoffAll]
    · rw [hci3, hwholeEq]
    · intro i hic
      rw [hi3 i hic, hi2 i hic]
    · intro e hec
      rw [hd3 e hec, hd2 e hec]
    · rw [hlinks3]
      simp [hfs2, writeThrough, hfs1]
    · rw [hnext3]
      simp [hfs2, writeThrough, hfs1]
    · refine List.Forall₂.cons ?_ ?_
      · refine ⟨rfl, rfl, ?_, ?_, ?_⟩
        · rw [hslice]
        · show bytes.length ≤ p.length
          rw [hbytes]
          exact readRange_length_le c p.start p.length
        · show readRange (cache ++ blobOf readers fs ((k, p) :: tl)) off bytes.length =
            sliceOf readers fs p
          rw [hslice, hblobAll, ← hlen, readRange_append_exact]
      · refine forall2_imp_mem
          (CleanRel readers fs2 cg ((cache ++ bytes) ++ blobOf readers fs2 tl))
          (CleanRel readers fs cg (cache ++ blobOf readers fs ((k, p) :: tl)))
          tl entries' hrel3 ?_
        intro a ha b hr
        obtain ⟨hk1, hg1, hl1, hle1, hread1⟩ := hr
        refine ⟨hk1, hg1, ?_, hle1, ?_⟩
        · rw [hl1, sliceOf_congr readers fs fs2 ci cd a.2
            (hch a (List.mem_cons_of_mem _ ha)) hi2 hd2]
        · rw [← sliceOf_congr readers fs fs2 ci cd a.2
            (hch a (List.mem_cons_of_mem _ ha)) hi2 hd2, ← hread1, hwholeEq]

/-- Characterization of `clean_stale_data` up to the deletion loop: under a
resolvable, non-aliasing index and a fresh compaction path, the copy loop
succeeds, producing the compaction inode `ci` (holding exactly the indexed
bytes) read through description `cd`, the repointed index, and the final
result is the branch selection followed by the deletion loop. -/
theorem cleanOp_cases (s : KvStore) (fs : Fs)
    (hnodup : (keysA s.index).Nodup)
    (hch : ∀ kp ∈ s.index, ∃ d dsc c, lookupA s.readers kp.2.gen = some d ∧
      lookupA fs.descs d = some dsc ∧ lookupA fs.inodes dsc.inode = some c)
    (hids : idsBound fs)
    (hcgNone : lookupA fs.links (wadd s.curr_gen 1) = none) :
    ∃ fs2 index',
      lookupA fs2.descs (fs.nextId + 1) =
        some ⟨fs.nextId, (blobOf s.readers fs s.index).length⟩ ∧
      lookupA fs2.inodes fs.nextId = some (blobOf s.readers fs s.index) ∧
      (∀ i, i ≠ fs.nextId → lookupA fs2.inodes i = lookupA fs.inodes i) ∧
      (∀ d, d ≠ fs.nextId + 1 →
        (lookupA fs2.descs d).map Desc.inode = (lookupA fs.descs d).map Desc.inode) ∧
      fs2.links = fs.links ++ [(wadd s.curr_gen 1, fs.nextId)] ∧
      fs2.nextId = fs.nextId + 2 ∧
      List.Forall₂ (CleanRel s.readers fs (wadd s.curr_gen 1)
        (blobOf s.readers fs s.index)) s.index index' ∧
      ∃ s1 fs3,
        (((blobOf s.readers fs s.index).length ≤ SIZE_THRESHOLD ∧
          s1 = { s with index := index', readers := [(wadd s.curr_gen 1, fs.nextId + 1)], writerDesc := fs.nextId + 1, curr_gen := wadd s.curr_gen 1 } ∧
          fs3 = fs2) ∨
         ((blobOf s.readers fs s.index).length > SIZE_THRESHOLD ∧
          s1 = { s with index := index', readers := insertA [(wadd s.curr_gen 1, fs.nextId + 1)] (wadd s.curr_gen 2) (openCreateAt fs2 s.curr_gen).2, writerDesc := (openCreateAt fs2 s.curr_gen).2, curr_gen := wadd s.curr_gen 2 } ∧
          fs3 = (openCreateAt fs2 s.curr_gen).1)) ∧
        cleanOp s fs =
          (match delLoop fs3 (keysA s.readers) with
           | (fs4, Except.error e) => (s1, fs4, Except.error e)
           | (fs4, Except.ok ()) =>
             ({ s1 with stale_bytes := 0 }, fs4, Except.ok s.stale_bytes)) := by
  have hdescBound := hids.2.1
  set ci := fs.nextId with hci
  set cd := fs.nextId + 1 with hcd
  set cleanGen := wadd s.curr_gen 1 with hcg
  set fs1 : Fs :=
    { fs with inodes := insertA fs.inodes ci [],
              links := insertA fs.links cleanGen ci,
              descs := insertA fs.descs cd ⟨ci, 0⟩,
              nextId := fs.nextId + 2 } with hfs1
  have hopen : openCreateAt fs cleanGen = (fs1, cd) := by
    simp [openCreateAt, hcgNone, hfs1]
  have hi1 : ∀ i, i ≠ ci → lookupA fs1.inodes i = lookupA fs.inodes i := by
    intro i hic
    rw [hfs1]
    simp only [lookupA_insertA]
    rw [if_neg hic]
  have hd1 : ∀ d, d ≠ cd →
      (lookupA fs1.descs d).map Desc.inode = (lookupA fs.descs d).map Desc.inode := by
    intro d hdc
    rw [hfs1]
    simp only [lookupA_insertA]
    rw [if_neg hdc]
  have hchain1 : ∀ kp ∈ s.index, ChainOk s.readers fs1 ci cd kp.2 := by
    intro kp hkp
    obtain ⟨d, dsc, c, hr, hd, hic⟩ := hch kp hkp
    obtain ⟨hdlt, hdi⟩ := hdescBound d dsc hd
    have hdne : d ≠ cd := by omega
    have hine : dsc.inode ≠ ci := by omega
    refine ⟨d, dsc, c, hr, hdne, ?_, hine, ?_⟩
    · rw [hfs1]
      simp only [lookupA_insertA]
      rw [if_neg hdne]
      exact hd
    · rw [hi1 dsc.inode hine]
      exact hic
  have hchain0 : ∀ kp ∈ s.index, ChainOk s.readers fs ci cd kp.2 := by
    intro kp hkp
    obtain ⟨d, dsc, c, hr, hd, hic⟩ := hch kp hkp
    obtain ⟨hdlt, hdi⟩ := hdescBound d dsc hd
    exact ⟨d, dsc, c, hr, by omega, hd, by omega, hic⟩
  have hcd1 : lookupA fs1.descs cd = some ⟨ci, 0⟩ := by
    rw [hfs1]
    simp [lookupA_insertA]
  have hci1 : lookupA fs1.inodes ci = some [] := by
    rw [hfs1]
    simp [lookupA_insertA]
  obtain ⟨fs2, index', hfold, hcd2, hci2, hi2, hd2, hlinks2, hnext2, hrel2⟩ :=
    cleanFold_spec s.readers cd cleanGen ci s.index fs1 0 [] hcd1 hci1 rfl hchain1
  have hblob1 : blobOf s.readers fs1 s.index = blobOf s.readers fs s.index :=
    blobOf_congr s.readers fs fs1 ci cd s.index hchain0 hi1 hd1
  have hcd2' : lookupA fs2.descs cd =
      some ⟨ci, (blobOf s.readers fs s.index).length⟩ := by
    rw [hcd2, hblob1]
    simp
  have hci2' : lookupA fs2.inodes ci = some (blobOf s.readers fs s.index) := by
    rw [hci2, hblob1]
    simp
  refine ⟨fs2, index', hcd2', hci2',
    fun i hic => by rw [hi2 i hic, hi1 i hic],
    fun d hdc => by rw [hd2 d hdc, hd1 d hdc], ?_, ?_, ?_, ?_⟩
  · rw [hlinks2, hfs1]
    simp only
    exact insertA_of_lookup_none fs.links cleanGen ci hcgNone
  · rw [hnext2, hfs1]
  · refine forall2_imp_mem
      (CleanRel s.readers fs1 cleanGen ([] ++ blobOf s.readers fs1 s.index))
      (CleanRel s.readers fs cleanGen (blobOf s.readers fs s.index))
      s.index index' hrel2 ?_
    intro a ha b hr
    obtain ⟨hk1, hg1, hl1, hle1, hread1⟩ := hr
    have hsl : sliceOf s.readers fs1 a.2 = sliceOf s.readers fs a.2 :=
      sliceOf_congr s.readers fs fs1 ci cd a.2 (hchain0 a ha) hi1 hd1
    refine ⟨hk1, hg1, ?_, hle1, ?_⟩
    · rw [hl1, hsl]
    · rw [← hsl, ← hread1, ← hblob1]
      simp
  · set sfs : KvStore × Fs :=
      (if (blobOf s.readers fs s.index).length > SIZE_THRESHOLD then ({ s with index := index', readers := insertA [(cleanGen, cd)] (wadd s.curr_gen 2) (openCreateAt fs2 s.curr_gen).2, writerDesc := (openCreateAt fs2 s.curr_gen).2, curr_gen := wadd s.curr_gen 2 }, (openCreateAt fs2 s.curr_gen).1) else ({ s with index := index', readers := [(cleanGen, cd)], writerDesc := cd, curr_gen := cleanGen }, fs2)) with hsfs
    have hmain : cleanOp s fs =
        (match delLoop sfs.2 (keysA s.readers) with
         | (fs4, Except.error e) => (sfs.1, fs4, Except.error e)
         | (fs4, Except.ok ()) => ({ sfs.1 with stale_bytes := 0 }, fs4, Except.ok s.stale_bytes)) := by
      simp only [cleanOp, hopen]
      rw [hfold]
      simp only [hcd2', hci2']
    by_cases hsz : (blobOf s.readers fs s.index).length > SIZE_THRESHOLD
    · refine ⟨{ s with index := index', readers := insertA [(cleanGen, cd)] (wadd s.curr_gen 2) (openCreateAt fs2 s.curr_gen).2, writerDesc := (openCreateAt fs2 s.curr_gen).2, curr_gen := wadd s.curr_gen 2 }, (openCreateAt fs2 s.curr_gen).1, Or.inr ⟨hsz, rfl, rfl⟩, ?_⟩
      rw [hmain, hsfs]
      simp only [if_pos hsz]
    · refine ⟨{ s with index := index', readers := [(cleanGen, cd)], writerDesc := cd, curr_gen := cleanGen }, fs2, Or.inl ⟨Nat.not_lt.mp hsz, rfl, rfl⟩, ?_⟩
      rw [hmain, hsfs]
      simp only [if_neg hsz]

theorem openCreateAt_reuse (fs : Fs) (g i : Nat) (h : lookupA fs.links g = some i) :
    openCreateAt fs g =
      ({ fs with descs := insertA fs.descs fs.nextId ⟨i, 0⟩,
                 nextId := fs.nextId + 1 }, fs.nextId) := by
  simp [openCreateAt, h]

theorem openCreateAt_fresh (fs : Fs) (g : Nat) (h : lookupA fs.links g = none) :
    openCreateAt fs g =
      ({ fs with inodes := insertA fs.inodes fs.nextId [],
                 links := insertA fs.links g fs.nextId,
                 descs := insertA fs.descs (fs.nextId + 1) ⟨fs.nextId, 0⟩,
                 nextId := fs.nextId + 2 }, fs.nextId + 1) := by
  simp [openCreateAt, h]

theorem lookupA_singleton {α : Type} (a k : Nat) (b : α) (v : α)
    (h : lookupA [(a, b)] k = some v) : k = a ∧ v = b := by
  rw [lookupA_cons] at h
  by_cases hk : k = a
  · rw [if_pos hk] at h
    exact ⟨hk, by injection h with h'; exact h'.symm⟩
  · rw [if_neg hk] at h
    cases h

/-- Preservation of the engine invariant by `clean_stale_data`, whether the
deletion loop succeeds or fails with the store already swapped. -/
theorem Inv_clean (s : KvStore) (fs : Fs) (hinv : Inv s fs) :
    Inv (cleanOp s fs).1 (cleanOp s fs).2.1 := by
  obtain ⟨g0, i0, hlg⟩ := hinv.linksSingle
  have hcurrLt := hinv.currLt
  have hw1 : wadd s.curr_gen 1 ≠ s.curr_gen := wadd_one_ne s.curr_gen hcurrLt
  have hw2 : wadd s.curr_gen 2 ≠ s.curr_gen := wadd_two_ne s.curr_gen hcurrLt
  have hw21 : wadd s.curr_gen 2 ≠ wadd s.curr_gen 1 := by
    intro hc
    rw [← wadd_wadd_one] at hc
    exact wadd_one_ne (wadd s.curr_gen 1) (wadd_lt _ _) hc
  -- the compaction path is not an existing generation
  have hcgNone : lookupA fs.links (wadd s.curr_gen 1) = none := by
    cases hlk : lookupA fs.links (wadd s.curr_gen 1) with
    | none => rfl
    | some j =>
      exfalso
      rw [hlg] at hlk
      obtain ⟨hgeq, _⟩ := lookupA_singleton g0 (wadd s.curr_gen 1) i0 j hlk
      rcases hinv.form with ⟨d0, ic, hrd, hlc⟩ | ⟨p, d1, d2, ic, hrd, hpw, hplt, hlp, hlc⟩
      · rw [hlg] at hlc
        obtain ⟨hceq, _⟩ := lookupA_singleton g0 s.curr_gen i0 ic hlc
        exact hw1 (hgeq ▸ hceq ▸ rfl)
      · rw [hlg] at hlp
        obtain ⟨hpeq, _⟩ := lookupA_singleton g0 p i0 ic hlp
        have hpcg : p = wadd s.curr_gen 1 := by rw [hpeq, hgeq]
        have : s.curr_gen = wadd s.curr_gen 2 := by
          rw [← wadd_wadd_one, ← hpcg, hpw]
        exact hw2 this.symm
  have hch : ∀ kp ∈ s.index, ∃ d dsc c, lookupA s.readers kp.2.gen = some d ∧
      lookupA fs.descs d = some dsc ∧ lookupA fs.inodes dsc.inode = some c := by
    intro kp hkp
    have hlook : lookupA s.index kp.1 = some kp.2 :=
      lookupA_of_mem_nodup s.index kp.1 kp.2 hinv.idxNodup hkp
    have hrd := hinv.ptrReader kp.1 kp.2 hlook
    cases hd : lookupA s.readers kp.2.gen with
    | none => rw [hd] at hrd; cases hrd
    | some d =>
      have hds := hinv.readerDesc kp.2.gen d hd
      cases hdsc : lookupA fs.descs d with
      | none => rw [hdsc] at hds; cases hds
      | some dsc =>
        have hic := hinv.fsChains d dsc hdsc
        cases hc : lookupA fs.inodes dsc.inode with
        | none => rw [hc] at hic; cases hic
        | some c => exact ⟨d, dsc, c, rfl, hdsc, hc⟩
  obtain ⟨fs2, index', hcd2, hci2, hi2, hd2, hlinks2, hnext2, hrel2, s1, fs3, hshape, hEq⟩ :=
    cleanOp_cases s fs hinv.idxNodup hch hinv.ids hcgNone
  -- facts about the rewritten index
  have hkeyRel : ∀ a b, CleanRel s.readers fs (wadd s.curr_gen 1)
      (blobOf s.readers fs s.index) a b → b.1 = a.1 := fun a b hr => hr.1
  have hkeys : keysA index' = keysA s.index := keysA_forall2 hkeyRel _ _ hrel2
  have hnodup' : (keysA index').Nodup := by rw [hkeys]; exact hinv.idxNodup
  have hgen' : ∀ k p', lookupA index' k = some p' → p'.gen = wadd s.curr_gen 1 := by
    intro k p' hp'
    rcases lookupA_forall2 hkeyRel s.index index' hrel2 k with ⟨_, hn⟩ | ⟨p, q, _, hq, hr⟩
    · rw [hp'] at hn; cases hn
    · rw [hp'] at hq
      injection hq with hq
      exact hq ▸ hr.2.1
  -- ids of fs at hand
  obtain ⟨hidI, hidD, hidL⟩ := hinv.ids
  -- the two links entries of fs, depending on the form
  rcases hinv.form with ⟨d0, ic, hrd, hlc⟩ | ⟨p, d1, d2, ic, hrd, hpw, hplt, hlp, hlc⟩
  · -- form1: readers = [(curr, d0)], links = [(curr, ic)]
    rw [hlg] at hlc
    obtain ⟨hgeq, hieq⟩ := lookupA_singleton g0 s.curr_gen i0 ic hlc
    have hflinks : fs.links = [(s.curr_gen, ic)] := by rw [hlg, ← hgeq, hieq]
    have hkeysR : keysA s.readers = [s.curr_gen] := by rw [hrd]; rfl
    have hlinks2' : fs2.links = [(s.curr_gen, ic), (wadd s.curr_gen 1, fs.nextId)] := by
      rw [hlinks2, hflinks]; rfl
    have hlcurr2 : lookupA fs2.links s.curr_gen = some ic := by
      rw [hlinks2']
      simp [lookupA_cons]
    have hdel : ∀ fsx : Fs, fsx.links = fs2.links →
        delLoop fsx [s.curr_gen] =
          ({ fsx with links := [(wadd s.curr_gen 1, fs.nextId)] }, Except.ok ()) := by
      intro fsx hfx
      have hlx : lookupA fsx.links s.curr_gen = some ic := by rw [hfx]; exact hlcurr2
      have her : eraseA fsx.links s.curr_gen = [(wadd s.curr_gen 1, fs.nextId)] := by
        rw [hfx, hlinks2']
        simp [eraseA]
      simp only [delLoop, hlx, her]
    rcases hshape with ⟨hsz, hs1, hfs3⟩ | ⟨hsz, hs1, hfs3⟩
    · -- branch B: compaction target becomes active
      rw [hkeysR, hfs3, hdel fs2 rfl] at hEq
      rw [hEq]
      rw [hs1]
      constructor
      · exact hnodup'
      · intro k p' hp'
        rw [hgen' k p' hp']
        simp [lookupA_cons]
      · intro k p' hp'
        rw [hgen' k p' hp']
        simp [lookupA_cons]
      · exact wadd_lt _ _
      · exact Or.inl ⟨fs.nextId + 1, fs.nextId, rfl, by simp [lookupA_cons]⟩
      · exact ⟨wadd s.curr_gen 1, fs.nextId, rfl⟩
      · intro g d hg
        obtain ⟨hgeq', hdeq⟩ := lookupA_singleton _ g _ d hg
        rw [hdeq, hcd2]
        rfl
      · intro d dsc hd
        by_cases hdc : d = fs.nextId + 1
        · subst hdc
          rw [hcd2] at hd
          injection hd with hd
          rw [← hd]
          rw [hci2]
          rfl
        · have hmap := hd2 d hdc
          rw [hd] at hmap
          cases hold : lookupA fs.descs d with
          | none => rw [hold] at hmap; cases hmap
          | some dsc0 =>
            rw [hold] at hmap
            simp at hmap
            have hex := hinv.fsChains d dsc0 hold
            have hne : dsc0.inode ≠ fs.nextId := by
              have := (hidD d dsc0 hold).2
              omega
            rw [hmap, hi2 dsc0.inode hne]
            exact hex
      · intro g i hg
        obtain ⟨_, hieq'⟩ := lookupA_singleton _ g _ i hg
        rw [hieq', hci2]
        rfl
      · refine ⟨?_, ?_, ?_⟩
        · intro i c hic
          by_cases hie : i = fs.nextId
          · rw [hnext2]; omega
          · rw [hi2 i hie] at hic
            have := hidI i c hic
            rw [hnext2]; omega
        · intro d dsc hd
          by_cases hdc : d = fs.nextId + 1
          · subst hdc
            rw [hcd2] at hd
            injection hd with hd
            rw [← hd, hnext2]
            constructor <;> simp
          · have hmap := hd2 d hdc
            rw [hd] at hmap
            cases hold : lookupA fs.descs d with
            | none => rw [hold] at hmap; cases hmap
            | some dsc0 =>
              rw [hold] at hmap
              simp at hmap
              obtain ⟨h1, h2⟩ := hidD d dsc0 hold
              rw [hnext2]
              exact ⟨by omega, by rw [hmap]; omega⟩
        · intro g i hg
          obtain ⟨_, hieq'⟩ := lookupA_singleton _ g _ i hg
          rw [hieq', hnext2]
          omega
    · -- branch A: oversized target, yet another generation
      rw [openCreateAt_reuse fs2 s.curr_gen ic hlcurr2] at hs1 hfs3
      rw [hkeysR, hfs3] at hEq
      rw [hdel { fs2 with descs := insertA fs2.descs fs2.nextId ⟨ic, 0⟩, nextId := fs2.nextId + 1 } rfl] at hEq
      rw [hEq]
      rw [hs1]
      have hreaders1 : insertA [(wadd s.curr_gen 1, fs.nextId + 1)] (wadd s.curr_gen 2)
          fs2.nextId = [(wadd s.curr_gen 1, fs.nextId + 1), (wadd s.curr_gen 2, fs2.nextId)] := by
        apply insertA_of_lookup_none
        rw [lookupA_cons, if_neg hw21]
        rfl
      rw [hreaders1]
      have hlookCd : lookupA (insertA fs2.descs fs2.nextId ⟨ic, 0⟩) (fs.nextId + 1) =
          some ⟨fs.nextId, (blobOf s.readers fs s.index).length⟩ := by
        rw [lookupA_insertA, if_neg (by rw [hnext2]; omega), hcd2]
      constructor
      · exact hnodup'
      · intro k p' hp'
        rw [hgen' k p' hp']
        simp [lookupA_cons]
      · intro k p' hp'
        rw [hgen' k p' hp']
        simp [lookupA_cons]
      · exact wadd_lt _ _
      · refine Or.inr ⟨wadd s.curr_gen 1, fs.nextId + 1, fs2.nextId, fs.nextId, rfl,
          wadd_wadd_one _, wadd_lt _ _, by simp [lookupA_cons], ?_⟩
        rw [lookupA_cons, if_neg hw21]
        rfl
      · exact ⟨wadd s.curr_gen 1, fs.nextId, rfl⟩
      · intro g d hg
        rw [lookupA_cons] at hg
        by_cases hg1 : g = wadd s.curr_gen 1
        · rw [if_pos hg1] at hg
          injection hg with hg
          rw [← hg]
          rw [hlookCd]
          rfl
        · rw [if_neg hg1] at hg
          obtain ⟨_, hdeq⟩ := lookupA_singleton _ g _ d hg
          rw [hdeq]
          rw [show lookupA (insertA fs2.descs fs2.nextId ⟨ic, 0⟩) fs2.nextId =
            some ⟨ic, 0⟩ by rw [lookupA_insertA, if_pos rfl]]
          rfl
      · intro d dsc hd
        rw [lookupA_insertA] at hd
        by_cases hdn : d = fs2.nextId
        · rw [if_pos hdn] at hd
          injection hd with hd
          rw [← hd]
          have hicne : ic ≠ fs.nextId := by
            have := hidL s.curr_gen ic (by rw [hflinks]; simp [lookupA_cons])
            omega
          rw [show (⟨ic, 0⟩ : Desc).inode = ic from rfl, hi2 ic hicne]
          exact hinv.linkChains s.curr_gen ic (by rw [hflinks]; simp [lookupA_cons])
        · rw [if_neg hdn] at hd
          by_cases hdc : d = fs.nextId + 1
          · subst hdc
            rw [hcd2] at hd
            injection hd with hd
            rw [← hd, hci2]
            rfl
          · have hmap := hd2 d hdc
            rw [hd] at hmap
            cases hold : lookupA fs.descs d with
            | none => rw [hold] at hmap; cases hmap
            | some dsc0 =>
              rw [hold] at hmap
              simp at hmap
              have hex := hinv.fsChains d dsc0 hold
              have hne : dsc0.inode ≠ fs.nextId := by
                have := (hidD d dsc0 hold).2
                omega
              rw [hmap, hi2 dsc0.inode hne]
              exact hex
      · intro g i hg
        obtain ⟨_, hieq'⟩ := lookupA_singleton _ g _ i hg
        rw [hieq', hci2]
        rfl
      · refine ⟨?_, ?_, ?_⟩
        · intro i c hic
          show i < fs2.nextId + 1
          by_cases hie : i = fs.nextId
          · omega
          · rw [hi2 i hie] at hic
            have := hidI i c hic
            omega
        · intro d dsc hd
          rw [lookupA_insertA] at hd
          by_cases hdn : d = fs2.nextId
          · rw [if_pos hdn] at hd
            injection hd with hd
            have hiclt : ic < fs.nextId :=
              hidL s.curr_gen ic (by rw [hflinks]; simp [lookupA_cons])
            have hdi : dsc.inode = ic := by rw [← hd]
            refine ⟨?_, ?_⟩
            · show d < fs2.nextId + 1
              omega
            · show dsc.inode < fs2.nextId + 1
              omega
          · rw [if_neg hdn] at hd
            by_cases hdc : d = fs.nextId + 1
            · subst hdc
              rw [hcd2] at hd
              injection hd with hd
              have hdi : dsc.inode = fs.nextId := by rw [← hd]
              refine ⟨?_, ?_⟩
              · show fs.nextId + 1 < fs2.nextId + 1
                omega
              · show dsc.inode < fs2.nextId + 1
                omega
            · have hmap := hd2 d hdc
              rw [hd] at hmap
              cases hold : lookupA fs.descs d with
              | none => rw [hold] at hmap; cases hmap
              | some dsc0 =>
                rw [hold] at hmap
                simp at hmap
                obtain ⟨h1', h2'⟩ := hidD d dsc0 hold
                refine ⟨?_, ?_⟩
                · show d < fs2.nextId + 1
                  omega
                · show dsc.inode < fs2.nextId + 1
                  omega
        · intro g i hg
          obtain ⟨_, hieq'⟩ := lookupA_singleton _ g _ i hg
          show i < fs2.nextId + 1
          omega
  · -- form2: readers = [(p, d1), (curr, d2)], links = [(p, ic)], curr unlinked
    rw [hlg] at hlp
    obtain ⟨hgeq, hieq⟩ := lookupA_singleton g0 p i0 ic hlp
    have hflinks : fs.links = [(p, ic)] := by rw [hlg, ← hgeq, hieq]
    have hpne : p ≠ s.curr_gen := by
      intro h
      exact wadd_one_ne p hplt (by rw [hpw, h])
    have hcurrp : s.curr_gen ≠ p := Ne.symm hpne
    have hkeysR : keysA s.readers = [p, s.curr_gen] := by rw [hrd]; rfl
    have hlinks2' : fs2.links = [(p, ic), (wadd s.curr_gen 1, fs.nextId)] := by
      rw [hlinks2, hflinks]; rfl
    have hlcurr2 : lookupA fs2.links s.curr_gen = none := by
      rw [hlinks2']
      simp [lookupA_cons, lookupA_nil, hcurrp, Ne.symm hw1]
    rcases hshape with ⟨hsz, hs1, hfs3⟩ | ⟨hsz, hs1, hfs3⟩
    · -- branch B: deletion loop fails at the unlinked old active generation
      have h1 : lookupA fs2.links p = some ic := by
        rw [hlinks2']; simp [lookupA_cons]
      have h2 : eraseA fs2.links p = [(wadd s.curr_gen 1, fs.nextId)] := by
        rw [hlinks2']; simp [eraseA]
      have h3 : lookupA [(wadd s.curr_gen 1, fs.nextId)] s.curr_gen = none := by
        simp [lookupA_cons, lookupA_nil, Ne.symm hw1]
      have hdelB : delLoop fs2 [p, s.curr_gen] =
          ({ fs2 with links := [(wadd s.curr_gen 1, fs.nextId)] },
            Except.error KvsError.IoErr) := by
        simp only [delLoop, h1, h2, h3]
      rw [hkeysR, hfs3, hdelB] at hEq
      rw [hEq]
      rw [hs1]
      constructor
      · exact hnodup'
      · intro k p' hp'
        rw [hgen' k p' hp']
        simp [lookupA_cons]
      · intro k p' hp'
        rw [hgen' k p' hp']
        simp [lookupA_cons]
      · exact wadd_lt _ _
      · exact Or.inl ⟨fs.nextId + 1, fs.nextId, rfl, by simp [lookupA_cons]⟩
      · exact ⟨wadd s.curr_gen 1, fs.nextId, rfl⟩
      · intro g d hg
        obtain ⟨hgeq', hdeq⟩ := lookupA_singleton _ g _ d hg
        rw [hdeq, hcd2]
        rfl
      · intro d dsc hd
        by_cases hdc : d = fs.nextId + 1
        · subst hdc
          rw [hcd2] at hd
          injection hd with hd
          rw [← hd]
          rw [hci2]
          rfl
        · have hmap := hd2 d hdc
          rw [hd] at hmap
          cases hold : lookupA fs.descs d with
          | none => rw [hold] at hmap; cases hmap
          | some dsc0 =>
            rw [hold] at hmap
            simp at hmap
            have hex := hinv.fsChains d dsc0 hold
            have hne : dsc0.inode ≠ fs.nextId := by
              have := (hidD d dsc0 hold).2
              omega
            rw [hmap, hi2 dsc0.inode hne]
            exact hex
      · intro g i hg
        obtain ⟨_, hieq'⟩ := lookupA_singleton _ g _ i hg
        rw [hieq', hci2]
        rfl
      · refine ⟨?_, ?_, ?_⟩
        · intro i c hic
          by_cases hie : i = fs.nextId
          · rw [hnext2]; omega
          · rw [hi2 i hie] at hic
            have := hidI i c hic
            rw [hnext2]; omega
        · intro d dsc hd
          by_cases hdc : d = fs.nextId + 1
          · subst hdc
            rw [hcd2] at hd
            injection hd with hd
            rw [← hd, hnext2]
            constructor <;> simp
          · have hmap := hd2 d hdc
            rw [hd] at hmap
            cases hold : lookupA fs.descs d with
            | none => rw [hold] at hmap; cases hmap
            | some dsc0 =>
              rw [hold] at hmap
              simp at hmap
              obtain ⟨h1', h2'⟩ := hidD d dsc0 hold
              rw [hnext2]
              exact ⟨by omega, by rw [hmap]; omega⟩
        · intro g i hg
          obtain ⟨_, hieq'⟩ := lookupA_singleton _ g _ i hg
          rw [hieq', hnext2]
          omega
    · -- branch A: oversized target; the old active path is fresh here, so a
      -- brand-new file is created at it and the deletion loop succeeds
      rw [openCreateAt_fresh fs2 s.curr_gen hlcurr2] at hs1 hfs3
      have hlinks3 : insertA fs2.links s.curr_gen fs2.nextId =
          [(p, ic), (wadd s.curr_gen 1, fs.nextId), (s.curr_gen, fs2.nextId)] := by
        rw [insertA_of_lookup_none _ _ _ hlcurr2, hlinks2']
        rfl
      have h1 : lookupA (insertA fs2.links s.curr_gen fs2.nextId) p = some ic := by
        rw [hlinks3]; simp [lookupA_cons]
      have h2 : eraseA (insertA fs2.links s.curr_gen fs2.nextId) p =
          [(wadd s.curr_gen 1, fs.nextId), (s.curr_gen, fs2.nextId)] := by
        rw [hlinks3]; simp [eraseA]
      have h3 : lookupA [(wadd s.curr_gen 1, fs.nextId), (s.curr_gen, fs2.nextId)]
          s.curr_gen = some fs2.nextId := by
        simp [lookupA_cons, Ne.symm hw1]
      have h4 : eraseA [(wadd s.curr_gen 1, fs.nextId), (s.curr_gen, fs2.nextId)]
          s.curr_gen = [(wadd s.curr_gen 1, fs.nextId)] := by
        simp [eraseA, Ne.symm hw1]
      have hdelA : delLoop { fs2 with inodes := insertA fs2.inodes fs2.nextId [], links := insertA fs2.links s.curr_gen fs2.nextId, descs := insertA fs2.descs (fs2.nextId + 1) ⟨fs2.nextId, 0⟩, nextId := fs2.nextId + 2 } [p, s.curr_gen] = ({ fs2 with inodes := insertA fs2.inodes fs2.nextId [], links := [(wadd s.curr_gen 1, fs.nextId)], descs := insertA fs2.descs (fs2.nextId + 1) ⟨fs2.nextId, 0⟩, nextId := fs2.nextId + 2 }, Except.ok ()) := by
        simp only [delLoop, h1, h2, h3, h4]
      rw [hkeysR, hfs3, hdelA] at hEq
      rw [hEq]
      rw [hs1]
      have hreaders1 : insertA [(wadd s.curr_gen 1, fs.nextId + 1)] (wadd s.curr_gen 2)
          (fs2.nextId + 1) =
          [(wadd s.curr_gen 1, fs.nextId + 1), (wadd s.curr_gen 2, fs2.nextId + 1)] := by
        apply insertA_of_lookup_none
        rw [lookupA_cons, if_neg hw21]
        rfl
      rw [hreaders1]
      constructor
      · exact hnodup'
      · intro k p' hp'
        rw [hgen' k p' hp']
        simp [lookupA_cons]
      · intro k p' hp'
        rw [hgen' k p' hp']
        simp [lookupA_cons]
      · exact wadd_lt _ _
      · refine Or.inr ⟨wadd s.curr_gen 1, fs.nextId + 1, fs2.nextId + 1, fs.nextId, rfl,
          wadd_wadd_one _, wadd_lt _ _, by simp [lookupA_cons], ?_⟩
        rw [lookupA_cons, if_neg hw21]
        rfl
      · exact ⟨wadd s.curr_gen 1, fs.nextId, rfl⟩
      · intro g d hg
        rw [lookupA_cons] at hg
        by_cases hg1 : g = wadd s.curr_gen 1
        · rw [if_pos hg1] at hg
          injection hg with hg
          rw [← hg]
          rw [lookupA_insertA, if_neg (by rw [hnext2]; omega), hcd2]
          rfl
        · rw [if_neg hg1] at hg
          obtain ⟨_, hdeq⟩ := lookupA_singleton _ g _ d hg
          rw [hdeq, lookupA_insertA, if_pos rfl]
          rfl
      · intro d dsc hd
        rw [lookupA_insertA] at hd
        by_cases hdn : d = fs2.nextId + 1
        · rw [if_pos hdn] at hd
          injection hd with hd
          rw [← hd]
          rw [show (⟨fs2.nextId, 0⟩ : Desc).inode = fs2.nextId from rfl,
            lookupA_insertA, if_pos rfl]
          rfl
        · rw [if_neg hdn] at hd
          by_cases hdc : d = fs.nextId + 1
          · subst hdc
            rw [hcd2] at hd
            injection hd with hd
            rw [← hd]
            rw [show (⟨fs.nextId, (blobOf s.readers fs s.index).length⟩ : Desc).inode
              = fs.nextId from rfl, lookupA_insertA, if_neg (by rw [hnext2]; omega), hci2]
            rfl
          · have hmap := hd2 d hdc
            rw [hd] at hmap
            cases hold : lookupA fs.descs d with
            | none => rw [hold] at hmap; cases hmap
            | some dsc0 =>
              rw [hold] at hmap
              simp at hmap
              have hex := hinv.fsChains d dsc0 hold
              have hlt' := (hidD d dsc0 hold).2
              rw [hmap, lookupA_insertA, if_neg (by rw [hnext2]; omega),
                hi2 dsc0.inode (by omega)]
              exact hex
      · intro g i hg
        obtain ⟨_, hieq'⟩ := lookupA_singleton _ g _ i hg
        rw [hieq', lookupA_insertA, if_neg (by rw [hnext2]; omega), hci2]
        rfl
      · refine ⟨?_, ?_, ?_⟩
        · intro i c hic
          show i < fs2.nextId + 2
          rw [lookupA_insertA] at hic
          by_cases hin : i = fs2.nextId
          · omega
          · rw [if_neg hin] at hic
            by_cases hie : i = fs.nextId
            · omega
            · rw [hi2 i hie] at hic
              have := hidI i c hic
              omega
        · intro d dsc hd
          rw [lookupA_insertA] at hd
          by_cases hdn : d = fs2.nextId + 1
          · rw [if_pos hdn] at hd
            injection hd with hd
            have hdi : dsc.inode = fs2.nextId := by rw [← hd]
            refine ⟨?_, ?_⟩
            · show d < fs2.nextId + 2
              omega
            · show dsc.inode < fs2.nextId + 2
              omega
          · rw [if_neg hdn] at hd
            by_cases hdc : d = fs.nextId + 1
            · subst hdc
              rw [hcd2] at hd
              injection hd with hd
              have hdi : dsc.inode = fs.nextId := by rw [← hd]
              refine ⟨?_, ?_⟩
              · show fs.nextId + 1 < fs2.nextId + 2
                omega
              · show dsc.inode < fs2.nextId + 2
                omega
            · have hmap := hd2 d hdc
              rw [hd] at hmap
              cases hold : lookupA fs.descs d with
              | none => rw [hold] at hmap; cases hmap
              | some dsc0 =>
                rw [hold] at hmap
                simp at hmap
                obtain ⟨h1', h2'⟩ := hidD d dsc0 hold
                refine ⟨?_, ?_⟩
                · show d < fs2.nextId + 2
                  omega
                · show dsc.inode < fs2.nextId + 2
                  omega
        · intro g i hg
          obtain ⟨_, hieq'⟩ := lookupA_singleton _ g _ i hg
          show i < fs2.nextId + 2
          omega

theorem open_emptyFs : openOp emptyFs = Except.ok (st0, fs0) := rfl

theorem Inv_base : Inv st0 fs0 := by
  constructor
  · simp [st0, keysA]
  · intro k p h
    simp [st0, lookupA_nil] at h
  · intro k p h
    simp [st0, lookupA_nil] at h
  · decide
  · exact Or.inl ⟨1, 0, rfl, rfl⟩
  · exact ⟨1, 0, rfl⟩
  · intro g d h
    obtain ⟨_, hd⟩ := lookupA_singleton _ g _ d h
    rw [hd]
    rfl
  · intro d dsc h
    obtain ⟨_, hd⟩ := lookupA_singleton _ d _ dsc h
    rw [hd]
    rfl
  · intro g i h
    obtain ⟨_, hi⟩ := lookupA_singleton _ g _ i h
    rw [hi]
    rfl
  · refine ⟨?_, ?_, ?_⟩
    · intro i c h
      obtain ⟨hg, _⟩ := lookupA_singleton _ i _ c h
      rw [hg]
      decide
    · intro d dsc h
      obtain ⟨hg, hd⟩ := lookupA_singleton _ d _ dsc h
      rw [hg, hd]
      exact ⟨by decide, by decide⟩
    · intro g i h
      obtain ⟨_, hi⟩ := lookupA_singleton _ g _ i h
      rw [hi]
      decide

theorem lookupA_insertA_isSome {κ α : Type} [DecidableEq κ] (l : List (κ × α))
    (k x : κ) (v : α) (h : (lookupA l x).isSome) :
    (lookupA (insertA l k v) x).isSome := by
  rw [lookupA_insertA]
  by_cases hx : x = k
  · rw [if_pos hx]
    rfl
  · rw [if_neg hx]
    exact h

/-- The active generation always has an open reader (from the reader-set
shape of the invariant). -/
theorem Inv_reader_curr (s : KvStore) (fs : Fs) (hinv : Inv s fs) :
    (lookupA s.readers s.curr_gen).isSome := by
  rcases hinv.form with ⟨d0, i0, hrd, _⟩ | ⟨p0, d1, d2, i0, hrd, hpw, hplt, _, _⟩
  · rw [hrd, lookupA_cons, if_pos rfl]
    rfl
  · have hne : s.curr_gen ≠ p0 := by
      intro h
      exact wadd_one_ne p0 hplt (by rw [hpw, ← h])
    rw [hrd, lookupA_cons, if_neg hne, lookupA_cons, if_pos rfl]
    rfl

/-- A seek (updating one existing description's offset, inode unchanged)
preserves the invariant. -/
theorem Inv_descOff (s : KvStore) (fs : Fs) (hinv : Inv s fs) (d : Nat)
    (dsc : Desc) (off' : Nat) (hdsc : lookupA fs.descs d = some dsc) :
    Inv s { fs with descs := insertA fs.descs d ⟨dsc.inode, off'⟩ } := by
  obtain ⟨hidI, hidD, hidL⟩ := hinv.ids
  constructor
  · exact hinv.idxNodup
  · exact hinv.ptrReader
  · exact hinv.ptrLinkedOrCurr
  · exact hinv.currLt
  · exact hinv.form
  · exact hinv.linksSingle
  · intro g d' hg
    exact lookupA_insertA_isSome _ _ _ _ (hinv.readerDesc g d' hg)
  · intro d' dsc' hd'
    have hd2' : lookupA (insertA fs.descs d ⟨dsc.inode, off'⟩) d' = some dsc' := hd'
    rw [lookupA_insertA] at hd2'
    by_cases hdd : d' = d
    · rw [if_pos hdd] at hd2'
      injection hd2' with hd2'
      rw [← hd2']
      exact hinv.fsChains d dsc hdsc
    · rw [if_neg hdd] at hd2'
      exact hinv.fsChains d' dsc' hd2'
  · exact hinv.linkChains
  · refine ⟨hidI, ?_, hidL⟩
    intro d' dsc' hd'
    have hd2' : lookupA (insertA fs.descs d ⟨dsc.inode, off'⟩) d' = some dsc' := hd'
    rw [lookupA_insertA] at hd2'
    show d' < fs.nextId ∧ dsc'.inode < fs.nextId
    obtain ⟨h1, h2⟩ := hidD d dsc hdsc
    by_cases hdd : d' = d
    · rw [if_pos hdd] at hd2'
      injection hd2' with hd2'
      have h3 : dsc'.inode = dsc.inode := by rw [← hd2']
      omega
    · rw [if_neg hdd] at hd2'
      exact hidD d' dsc' hd2'

/-- An append through the active writer, together with any index rewrite
whose new pointers all carry the active generation, preserves the
invariant. -/
theorem Inv_writeIdx (s : KvStore) (fs : Fs) (hinv : Inv s fs) (dsc : Desc)
    (content bytes : List Char)
    (hdsc : lookupA fs.descs s.writerDesc = some dsc)
    (idx' : List (String × CommandPointer)) (st' : Nat)
    (hnodup : (keysA idx').Nodup)
    (hidx : ∀ k p, lookupA idx' k = some p →
      lookupA s.index k = some p ∨ p.gen = s.curr_gen) :
    Inv { s with index := idx', stale_bytes := st' }
      (writeThrough fs s.writerDesc dsc content bytes) := by
  obtain ⟨hidI, hidD, hidL⟩ := hinv.ids
  obtain ⟨hwlt, hwilt⟩ := hidD s.writerDesc dsc hdsc
  constructor
  · exact hnodup
  · intro k p h
    rcases hidx k p h with hold | hgen
    · exact hinv.ptrReader k p hold
    · rw [hgen]
      exact Inv_reader_curr s fs hinv
  · intro k p h
    rcases hidx k p h with hold | hgen
    · exact hinv.ptrLinkedOrCurr k p hold
    · exact Or.inr hgen
  · exact hinv.currLt
  · exact hinv.form
  · exact hinv.linksSingle
  · intro g d' hg
    exact lookupA_insertA_isSome _ _ _ _ (hinv.readerDesc g d' hg)
  · intro d' dsc' hd'
    have hd2' : lookupA (insertA fs.descs s.writerDesc
        ⟨dsc.inode, dsc.off + bytes.length⟩) d' = some dsc' := hd'
    rw [lookupA_insertA] at hd2'
    show (lookupA (insertA fs.inodes dsc.inode (writeAt content dsc.off bytes))
      dsc'.inode).isSome
    by_cases hdd : d' = s.writerDesc
    · rw [if_pos hdd] at hd2'
      injection hd2' with hd2'
      rw [← hd2']
      exact lookupA_insertA_isSome _ _ _ _ (hinv.fsChains s.writerDesc dsc hdsc)
    · rw [if_neg hdd] at hd2'
      exact lookupA_insertA_isSome _ _ _ _ (hinv.fsChains d' dsc' hd2')
  · intro g i hg
    have hg' : lookupA fs.links g = some i := hg
    show (lookupA (insertA fs.inodes dsc.inode (writeAt content dsc.off bytes))
      i).isSome
    exact lookupA_insertA_isSome _ _ _ _ (hinv.linkChains g i hg')
  · refine ⟨?_, ?_, ?_⟩
    · intro i c hic
      have hic' : lookupA (insertA fs.inodes dsc.inode
          (writeAt content dsc.off bytes)) i = some c := hic
      rw [lookupA_insertA] at hic'
      show i < fs.nextId
      by_cases hii : i = dsc.inode
      · omega
      · rw [if_neg hii] at hic'
        exact hidI i c hic'
    · intro d' dsc' hd'
      have hd2' : lookupA (insertA fs.descs s.writerDesc
          ⟨dsc.inode, dsc.off + bytes.length⟩) d' = some dsc' := hd'
      rw [lookupA_insertA] at hd2'
      show d' < fs.nextId ∧ dsc'.inode < fs.nextId
      by_cases hdd : d' = s.writerDesc
      · rw [if_pos hdd] at hd2'
        injection hd2' with hd2'
        have h3 : dsc'.inode = dsc.inode := by rw [← hd2']
        omega
      · rw [if_neg hdd] at hd2'
        exact hidD d' dsc' hd2'
    · intro g i hg
      have hg' : lookupA fs.links g = some i := hg
      show i < fs.nextId
      exact hidL g i hg'

/-- `set` preserves the invariant, including when it triggers compaction
and when it fails. -/
theorem Inv_set (s : KvStore) (fs : Fs) (k v : String) (hinv : Inv s fs) :
    Inv (setOp s fs k v).1 (setOp s fs k v).2.1 := by
  cases hdsc : lookupA fs.descs s.writerDesc with
  | none =>
    simp only [setOp, hdsc]
    exact hinv
  | some dsc =>
    cases hcont : lookupA fs.inodes dsc.inode with
    | none =>
      simp only [setOp, hdsc, hcont]
      exact hinv
    | some content =>
      have hmid : Inv { s with
          index := insertA s.index k ⟨s.curr_gen, dsc.off,
            dsc.off + (encodeC (Command.Set k v)).length - dsc.off⟩,
          stale_bytes := s.stale_bytes +
            (match lookupA s.index k with | some o => o.length | none => 0) }
          (writeThrough fs s.writerDesc dsc content (encodeC (Command.Set k v))) := by
        apply Inv_writeIdx s fs hinv dsc content _ hdsc
        · exact nodup_keysA_insertA _ _ _ hinv.idxNodup
        · intro k' p' hp'
          rw [lookupA_insertA] at hp'
          by_cases hk : k' = k
          · rw [if_pos hk] at hp'
            injection hp' with hp'
            right
            rw [← hp']
          · rw [if_neg hk] at hp'
            exact Or.inl hp'
      simp only [setOp, hdsc, hcont]
      split
      · split
        · rename_i s2 fs2 e heq
          have hres := Inv_clean _ _ hmid
          rw [heq] at hres
          exact hres
        · rename_i s2 fs2 val heq
          have hres := Inv_clean _ _ hmid
          rw [heq] at hres
          exact hres
      · exact hmid

/-- `remove` preserves the invariant, including when it triggers compaction
and when it fails. -/
theorem Inv_remove (s : KvStore) (fs : Fs) (k : String) (hinv : Inv s fs) :
    Inv (removeOp s fs k).1 (removeOp s fs k).2.1 := by
  cases hdsc : lookupA fs.descs s.writerDesc with
  | none =>
    simp only [removeOp, hdsc]
    exact hinv
  | some dsc =>
    cases hcont : lookupA fs.inodes dsc.inode with
    | none =>
      simp only [removeOp, hdsc, hcont]
      exact hinv
    | some content =>
      cases hold : lookupA s.index k with
      | none =>
        simp only [removeOp, hdsc, hcont, hold]
        exact Inv_writeIdx s fs hinv dsc content _ hdsc s.index s.stale_bytes
          hinv.idxNodup (fun k' p' h => Or.inl h)
      | some old =>
        have hmid : Inv { s with
            index := eraseA s.index k,
            stale_bytes := s.stale_bytes + old.length }
            (writeThrough fs s.writerDesc dsc content (encodeC (Command.Remove k))) := by
          apply Inv_writeIdx s fs hinv dsc content _ hdsc
          · exact nodup_keysA_eraseA _ _ hinv.idxNodup
          · intro k' p' hp'
            exact Or.inl (lookupA_eraseA_some _ _ _ _ hinv.idxNodup hp')
        simp only [removeOp, hdsc, hcont, hold]
        split
        · split
          · rename_i s2 fs2 e heq
            have hres := Inv_clean _ _ hmid
            rw [heq] at hres
            exact hres
          · rename_i s2 fs2 val heq
            have hres := Inv_clean _ _ hmid
            rw [heq] at hres
            exact hres
        · exact hmid

/-- `get` preserves the invariant (it only moves a shared seek offset). -/
theorem Inv_get (s : KvStore) (fs : Fs) (k : String) (hinv : Inv s fs) :
    Inv (getOp s fs k).1 (getOp s fs k).2.1 := by
  cases hik : lookupA s.index k with
  | none =>
    simp only [getOp, hik]
    exact hinv
  | some p =>
    cases hrd : lookupA s.readers p.gen with
    | none =>
      simp only [getOp, hik, hrd]
      exact hinv
    | some d =>
      cases hd : lookupA fs.descs d with
      | none =>
        simp only [getOp, hik, hrd, hd]
        exact hinv
      | some dsc =>
        cases hic : lookupA fs.inodes dsc.inode with
        | none =>
          simp only [getOp, hik, hrd, hd, hic]
          exact hinv
        | some content =>
          have hfs1 := Inv_descOff s fs hinv d dsc
            (p.start + (readRange content p.start p.length).length) hd
          simp only [getOp, hik, hrd, hd, hic]
          split
          · exact hfs1
          · exact hfs1
          · exact hfs1

/-- Every reachable state satisfies the invariant. -/
theorem Inv_reach (s : KvStore) (fs : Fs) (h : Reach s fs) : Inv s fs := by
  induction h with
  | openEmpty s fs h0 =>
    rw [open_emptyFs] at h0
    injection h0 with h0
    injection h0 with h1 h2
    rw [← h1, ← h2]
    exact Inv_base
  | stepSet s fs k v hr ih => exact Inv_set s fs k v ih
  | stepGet s fs k hr ih => exact Inv_get s fs k ih
  | stepRemove s fs k hr ih => exact Inv_remove s fs k ih
  | stepClean s fs hr ih => exact Inv_clean s fs ih

theorem lookupA_mem {κ α : Type} [DecidableEq κ] (l : List (κ × α)) (k : κ)
    (v : α) (h : lookupA l k = some v) : (k, v) ∈ l := by
  induction l with
  | nil =>
    rw [lookupA_nil] at h
    cases h
  | cons hd tl ih =>
    obtain ⟨k0, v0⟩ := hd
    rw [lookupA_cons] at h
    by_cases hk : k = k0
    · subst hk
      rw [if_pos rfl] at h
      injection h with h
      rw [← h]
      exact List.mem_cons_self _ _
    · rw [if_neg hk] at h
      exact List.mem_cons_of_mem _ (ih h)

/-- Every member of a replayed index either carries the replayed generation
or was in the index already. -/
theorem replayStep_fold_mem (g : Nat) :
    ∀ (cls : List (Command × Nat))
      (acc : Nat × List (String × CommandPointer) × Nat)
      (kp : String × CommandPointer), kp ∈ (cls.foldl (replayStep g) acc).2.1 →
      kp.2.gen = g ∨ kp ∈ acc.2.1 := by
  intro cls
  induction cls with
  | nil =>
    intro acc kp h
    exact Or.inr h
  | cons cl rest ih =>
    intro acc kp h
    rw [List.foldl_cons] at h
    rcases ih (replayStep g acc cl) kp h with h1 | h1
    · exact Or.inl h1
    · obtain ⟨cmd, len⟩ := cl
      cases cmd with
      | Set k v =>
        simp only [replayStep] at h1
        rcases mem_insertA _ _ _ _ h1 with h2 | h2
        · exact Or.inr h2
        · left
          rw [h2]
      | Remove k =>
        simp only [replayStep] at h1
        exact Or.inr (mem_eraseA _ _ _ h1)

theorem replay_mem (content : List Char) (index : List (String × CommandPointer))
    (g : Nat) (r : List (String × CommandPointer) × Nat)
    (h : replay content index g = Except.ok r) :
    ∀ kp ∈ r.1, kp.2.gen = g ∨ kp ∈ index := by
  intro kp hkp
  unfold replay at h
  cases hpa : parseAll content with
  | none =>
    rw [hpa] at h
    cases h
  | some cls =>
    rw [hpa] at h
    injection h with h
    rw [← h] at hkp
    exact replayStep_fold_mem g cls (0, index, 0) kp hkp

/-- The replay loop of `open` keeps every chain live: indexed generations
have readers, readers have descriptions, descriptions have inodes; the
directory (links, inodes) is untouched. -/
theorem openFold_invG :
    ∀ (gens : List Nat) (fsa : Fs) (index : List (String × CommandPointer))
      (readers : List (Nat × Nat)) (stale : Nat)
      (r : Fs × List (String × CommandPointer) × List (Nat × Nat) × Nat),
      openFold fsa gens index readers stale = Except.ok r →
      (∀ kp ∈ index, (lookupA readers kp.2.gen).isSome) →
      (∀ gd ∈ readers, (lookupA fsa.descs gd.2).isSome) →
      (∀ dd ∈ fsa.descs, (lookupA fsa.inodes dd.2.inode).isSome) →
      (∀ kp ∈ r.2.1, (lookupA r.2.2.1 kp.2.gen).isSome) ∧
      (∀ gd ∈ r.2.2.1, (lookupA r.1.descs gd.2).isSome) ∧
      (∀ dd ∈ r.1.descs, (lookupA r.1.inodes dd.2.inode).isSome) ∧
      r.1.inodes = fsa.inodes ∧ r.1.links = fsa.links := by
  intro gens
  induction gens with
  | nil =>
    intro fsa index readers stale r h h1 h2 h3
    simp only [openFold] at h
    injection h with h
    rw [← h]
    exact ⟨h1, h2, h3, rfl, rfl⟩
  | cons g rest ih =>
    intro fsa index readers stale r h h1 h2 h3
    simp only [openFold] at h
    cases hl : lookupA fsa.links g with
    | none => simp only [hl] at h; cases h
    | some i =>
      simp only [hl] at h
      cases hc : lookupA fsa.inodes i with
      | none => simp only [hc] at h; cases h
      | some content =>
        simp only [hc] at h
        cases hr : replay content index g with
        | error e => simp only [hr] at h; cases h
        | ok ist =>
          simp only [hr] at h
          have hA : ∀ kp ∈ ist.1,
              (lookupA (insertA readers g fsa.nextId) kp.2.gen).isSome := by
            intro kp hkp
            rw [lookupA_insertA]
            by_cases he : kp.2.gen = g
            · rw [if_pos he]
              rfl
            · rw [if_neg he]
              rcases replay_mem content index g ist hr kp hkp with hg | hold
              · exact absurd hg he
              · exact h1 kp hold
          have hB : ∀ gd ∈ insertA readers g fsa.nextId,
              (lookupA (insertA fsa.descs fsa.nextId ⟨i, content.length⟩)
                gd.2).isSome := by
            intro gd hgd
            rcases mem_insertA _ _ _ _ hgd with hold | hnew
            · exact lookupA_insertA_isSome _ _ _ _ (h2 gd hold)
            · rw [hnew]
              show (lookupA (insertA fsa.descs fsa.nextId ⟨i, content.length⟩)
                fsa.nextId).isSome
              rw [lookupA_insertA, if_pos rfl]
              rfl
          have hC : ∀ dd ∈ insertA fsa.descs fsa.nextId ⟨i, content.length⟩,
              (lookupA fsa.inodes dd.2.inode).isSome := by
            intro dd hdd
            rcases mem_insertA _ _ _ _ hdd with hold | hnew
            · exact h3 dd hold
            · rw [hnew]
              show (lookupA fsa.inodes i).isSome
              rw [hc]
              rfl
          obtain ⟨c1, c2, c3, c4, c5⟩ := ih _ _ _ _ _ h hA hB hC
          exact ⟨c1, c2, c3, c4, c5⟩

/-- `get_logfile`/`new_logfile` keep all chains live and only add handles:
the returned description resolves, every description and link chain of the
result resolves, and existing descriptions and inodes survive. -/
theorem openCreateAt_invG (fs : Fs) (g : Nat)
    (hC : ∀ dd ∈ fs.descs, (lookupA fs.inodes dd.2.inode).isSome)
    (hL : ∀ gi ∈ fs.links, (lookupA fs.inodes gi.2).isSome) :
    (lookupA (openCreateAt fs g).1.descs (openCreateAt fs g).2).isSome ∧
    (∀ dd ∈ (openCreateAt fs g).1.descs,
      (lookupA (openCreateAt fs g).1.inodes dd.2.inode).isSome) ∧
    (∀ gi ∈ (openCreateAt fs g).1.links,
      (lookupA (openCreateAt fs g).1.inodes gi.2).isSome) ∧
    (∀ d, (lookupA fs.descs d).isSome →
      (lookupA (openCreateAt fs g).1.descs d).isSome) ∧
    (∀ i, (lookupA fs.inodes i).isSome →
      (lookupA (openCreateAt fs g).1.inodes i).isSome) := by
  cases hoc : lookupA fs.links g with
  | some i =>
    rw [openCreateAt_reuse fs g i hoc]
    refine ⟨?_, ?_, ?_, ?_, ?_⟩
    · show (lookupA (insertA fs.descs fs.nextId ⟨i, 0⟩) fs.nextId).isSome
      rw [lookupA_insertA, if_pos rfl]
      rfl
    · intro dd hdd
      have hdd' : dd ∈ insertA fs.descs fs.nextId ⟨i, 0⟩ := hdd
      show (lookupA fs.inodes dd.2.inode).isSome
      rcases mem_insertA _ _ _ _ hdd' with hold | hnew
      · exact hC dd hold
      · rw [hnew]
        show (lookupA fs.inodes i).isSome
        exact hL (g, i) (lookupA_mem _ _ _ hoc)
    · intro gi hgi
      exact hL gi hgi
    · intro d hd
      exact lookupA_insertA_isSome _ _ _ _ hd
    · intro i' hi'
      exact hi'
  | none =>
    rw [openCreateAt_fresh fs g hoc]
    refine ⟨?_, ?_, ?_, ?_, ?_⟩
    · show (lookupA (insertA fs.descs (fs.nextId + 1) ⟨fs.nextId, 0⟩)
        (fs.nextId + 1)).isSome
      rw [lookupA_insertA, if_pos rfl]
      rfl
    · intro dd hdd
      have hdd' : dd ∈ insertA fs.descs (fs.nextId + 1) ⟨fs.nextId, 0⟩ := hdd
      show (lookupA (insertA fs.inodes fs.nextId []) dd.2.inode).isSome
      rcases mem_insertA _ _ _ _ hdd' with hold | hnew
      · exact lookupA_insertA_isSome _ _ _ _ (hC dd hold)
      · rw [hnew]
        show (lookupA (insertA fs.inodes fs.nextId []) fs.nextId).isSome
        rw [lookupA_insertA, if_pos rfl]
        rfl
    · intro gi hgi
      have hgi' : gi ∈ insertA fs.links g fs.nextId := hgi
      show (lookupA (insertA fs.inodes fs.nextId []) gi.2).isSome
      rcases mem_insertA _ _ _ _ hgi' with hold | hnew
      · exact lookupA_insertA_isSome _ _ _ _ (hL gi hold)
      · rw [hnew]
        show (lookupA (insertA fs.inodes fs.nextId []) fs.nextId).isSome
        rw [lookupA_insertA, if_pos rfl]
        rfl
    · intro d hd
      exact lookupA_insertA_isSome _ _ _ _ hd
    · intro i' hi'
      exact lookupA_insertA_isSome _ _ _ _ hi'

/-- `open` on any directory establishes the general invariant. -/
theorem open_InvG (fsd : Fs) (s : KvStore) (fs : Fs) (hdir : DirFs fsd)
    (h : openOp fsd = Except.ok (s, fs)) : InvG s fs := by
  obtain ⟨hdescs, hlinks⟩ := hdir
  simp only [openOp] at h
  cases hcg : chooseCurrGen fsd with
  | error e => simp only [hcg] at h; cases h
  | ok curr =>
    simp only [hcg] at h
    cases hof : openFold fsd (sortIns (keysA fsd.links)) [] [] 0 with
    | error e => simp only [hof] at h; cases h
    | ok r =>
      simp only [hof] at h
      injection h with h
      injection h with hs hfs
      obtain ⟨c1, c2, c3, c4, c5⟩ := openFold_invG _ _ _ _ _ _ hof
        (fun kp h' => absurd h' (List.not_mem_nil _))
        (fun gd h' => absurd h' (List.not_mem_nil _))
        (by rw [hdescs]; intro dd h'; exact absurd h' (List.not_mem_nil _))
      have hrC : ∀ dd ∈ r.1.descs, (lookupA r.1.inodes dd.2.inode).isSome := c3
      have hrL : ∀ gi ∈ r.1.links, (lookupA r.1.inodes gi.2).isSome := by
        intro gi hgi
        rw [c5] at hgi
        rw [c4]
        exact hlinks gi hgi
      obtain ⟨o1, o2, o3, o4, o5⟩ := openCreateAt_invG r.1 curr hrC hrL
      rw [← hs, ← hfs]
      constructor
      · intro kp hkp
        show (lookupA (insertA r.2.2.1 curr (openCreateAt r.1 curr).2)
          kp.2.gen).isSome
        exact lookupA_insertA_isSome _ _ _ _ (c1 kp hkp)
      · show (lookupA (insertA r.2.2.1 curr (openCreateAt r.1 curr).2) curr).isSome
        rw [lookupA_insertA, if_pos rfl]
        rfl
      · intro gd hgd
        have hgd' : gd ∈ insertA r.2.2.1 curr (openCreateAt r.1 curr).2 := hgd
        rcases mem_insertA _ _ _ _ hgd' with hold | hnew
        · exact o4 gd.2 (c2 gd hold)
        · rw [hnew]
          exact o1
      · exact o2
      · exact o3

/-- The compaction copy loop, without any freshness assumption on the
target (it may alias a source inode, as happens when the generation counter
wraps): whenever every entry's read chain and the target's chain resolve,
the loop succeeds, keys of descriptions and inodes are preserved, the
directory and id counter are untouched, every rewritten entry carries the
compaction generation, and all description chains still resolve. -/
theorem cleanFold_live (readers : List (Nat × Nat)) (cd cg : Nat) :
    ∀ (entries : List (String × CommandPointer)) (fs : Fs) (off : Nat),
    (∀ kp ∈ entries, ∃ d, lookupA readers kp.2.gen = some d ∧
      (lookupA fs.descs d).isSome) →
    (∀ dd ∈ fs.descs, (lookupA fs.inodes dd.2.inode).isSome) →
    (lookupA fs.descs cd).isSome →
    ∃ fs2 entries2 off2,
      cleanFold readers cd cg fs entries off =
        (fs2, entries2, off2, Except.ok ()) ∧
      (∀ d, (lookupA fs2.descs d).isSome = (lookupA fs.descs d).isSome) ∧
      (∀ i, (lookupA fs2.inodes i).isSome = (lookupA fs.inodes i).isSome) ∧
      fs2.links = fs.links ∧ fs2.nextId = fs.nextId ∧
      (∀ kp ∈ entries2, kp.2.gen = cg) ∧
      (∀ dd ∈ fs2.descs, (lookupA fs2.inodes dd.2.inode).isSome) := by
  intro entries
  induction entries with
  | nil =>
    intro fs off hE hC hcd
    exact ⟨fs, [], off, rfl, fun d => rfl, fun i => rfl, rfl, rfl,
      fun kp h => absurd h (List.not_mem_nil _), hC⟩
  | cons hd tl ih =>
    intro fs off hE hC hcd
    obtain ⟨k, p⟩ := hd
    obtain ⟨d, hrd, hdS⟩ := hE (k, p) (List.mem_cons_self _ _)
    have hrd' : lookupA readers p.gen = some d := hrd
    cases hdsc : lookupA fs.descs d with
    | none => rw [hdsc] at hdS; simp at hdS
    | some dsc =>
      have hcS := hC (d, dsc) (lookupA_mem _ _ _ hdsc)
      cases hcont : lookupA fs.inodes dsc.inode with
      | none => rw [hcont] at hcS; simp at hcS
      | some content =>
        set bytes := readRange content p.start p.length with hbytes
        set fs1 : Fs :=
          { fs with descs := insertA fs.descs d ⟨dsc.inode, p.start + bytes.length⟩ } with hfs1
        have hdS1 : ∀ dx, (lookupA fs1.descs dx).isSome =
            (lookupA fs.descs dx).isSome := by
          intro dx
          show (lookupA (insertA fs.descs d ⟨dsc.inode, p.start + bytes.length⟩)
            dx).isSome = _
          rw [lookupA_insertA]
          by_cases hx : dx = d
          · rw [if_pos hx, hx, hdsc]
            rfl
          · rw [if_neg hx]
        have hC1 : ∀ dd ∈ fs1.descs, (lookupA fs1.inodes dd.2.inode).isSome := by
          intro dd hdd
          have hdd' : dd ∈ insertA fs.descs d ⟨dsc.inode, p.start + bytes.length⟩ := hdd
          show (lookupA fs.inodes dd.2.inode).isSome
          rcases mem_insertA _ _ _ _ hdd' with hold | hnew
          · exact hC dd hold
          · rw [hnew]
            show (lookupA fs.inodes dsc.inode).isSome
            rw [hcont]
            rfl
        have hcd1 : (lookupA fs1.descs cd).isSome := by
          rw [hdS1]
          exact hcd
        cases hcdsc : lookupA fs1.descs cd with
        | none => rw [hcdsc] at hcd1; simp at hcd1
        | some cdsc =>
          have hccS := hC1 (cd, cdsc) (lookupA_mem _ _ _ hcdsc)
          cases hcc : lookupA fs1.inodes cdsc.inode with
          | none => rw [hcc] at hccS; simp at hccS
          | some ccontent =>
            set fsb : Fs := writeThrough fs1 cd cdsc ccontent bytes with hfsb
            have hdS2 : ∀ dx, (lookupA fsb.descs dx).isSome =
                (lookupA fs1.descs dx).isSome := by
              intro dx
              show (lookupA (insertA fs1.descs cd
                ⟨cdsc.inode, cdsc.off + bytes.length⟩) dx).isSome = _
              rw [lookupA_insertA]
              by_cases hx : dx = cd
              · rw [if_pos hx, hx, hcdsc]
                rfl
              · rw [if_neg hx]
            have hiS2 : ∀ i, (lookupA fsb.inodes i).isSome =
                (lookupA fs1.inodes i).isSome := by
              intro i
              show (lookupA (insertA fs1.inodes cdsc.inode
                (writeAt ccontent cdsc.off bytes)) i).isSome = _
              rw [lookupA_insertA]
              by_cases hx : i = cdsc.inode
              · rw [if_pos hx, hx, hcc]
                rfl
              · rw [if_neg hx]
            have hC2 : ∀ dd ∈ fsb.descs, (lookupA fsb.inodes dd.2.inode).isSome := by
              intro dd hdd
              have hdd' : dd ∈ insertA fs1.descs cd
                ⟨cdsc.inode, cdsc.off + bytes.length⟩ := hdd
              rw [show (lookupA fsb.inodes dd.2.inode).isSome =
                (lookupA fs1.inodes dd.2.inode).isSome from hiS2 _]
              rcases mem_insertA _ _ _ _ hdd' with hold | hnew
              · exact hC1 dd hold
              · rw [hnew]
                show (lookupA fs1.inodes cdsc.inode).isSome
                rw [hcc]
                rfl
            have hE2 : ∀ kp ∈ tl, ∃ dx, lookupA readers kp.2.gen = some dx ∧
                (lookupA fsb.descs dx).isSome := by
              intro kp hkp
              obtain ⟨dx, h1, h2⟩ := hE kp (List.mem_cons_of_mem _ hkp)
              refine ⟨dx, h1, ?_⟩
              rw [hdS2 dx, hdS1 dx]
              exact h2
            have hcd2 : (lookupA fsb.descs cd).isSome := by
              rw [hdS2 cd, hcdsc]
              rfl
            obtain ⟨fs2, entries2, off2, hfold, d1, d2, d3, d4, d5, d6⟩ :=
              ih fsb (off + bytes.length) hE2 hC2 hcd2
            refine ⟨fs2, (k, ⟨cg, off, bytes.length⟩) :: entries2, off2,
              ?_, ?_, ?_, ?_, ?_, ?_, d6⟩
            · show cleanFold readers cd cg fs ((k, p) :: tl) off = _
              simp only [cleanFold, hrd', hdsc, hcont, hcdsc, hcc]
              rw [← hfsb, hfold]
            · intro dx
              rw [d1 dx, hdS2 dx, hdS1 dx]
            · intro i
              rw [d2 i, hiS2 i]
            · rw [d3]
              simp [hfsb, writeThrough, hfs1]
            · rw [d4]
              simp [hfsb, writeThrough, hfs1]
            · intro kp hkp
              rcases List.mem_cons.mp hkp with hh | hh
              · rw [hh]
              · exact d5 kp hh

/-- The deletion loop only unlinks: descriptions, inodes and the id counter
survive, and every surviving link was a link before. -/
theorem delLoop_shrink : ∀ (gens : List Nat) (fs : Fs),
    (delLoop fs gens).1.descs = fs.descs ∧
    (delLoop fs gens).1.inodes = fs.inodes ∧
    (delLoop fs gens).1.nextId = fs.nextId ∧
    ∀ gi ∈ (delLoop fs gens).1.links, gi ∈ fs.links := by
  intro gens
  induction gens with
  | nil =>
    intro fs
    exact ⟨rfl, rfl, rfl, fun gi h => h⟩
  | cons g rest ih =>
    intro fs
    cases hl : lookupA fs.links g with
    | none =>
      have hred : delLoop fs (g :: rest) = (fs, Except.error KvsError.IoErr) := by
        simp only [delLoop, hl]
      rw [hred]
      exact ⟨rfl, rfl, rfl, fun gi h => h⟩
    | some i =>
      obtain ⟨ih1, ih2, ih3, ih4⟩ := ih { fs with links := eraseA fs.links g }
      have hred : delLoop fs (g :: rest) =
          delLoop { fs with links := eraseA fs.links g } rest := by
        simp only [delLoop, hl]
      rw [hred]
      exact ⟨ih1, ih2, ih3, fun gi h => mem_eraseA _ _ _ (ih4 gi h)⟩

/-- `clean_stale_data` preserves the general invariant, on every path:
fresh or aliased compaction target, small or oversized output, deletion
loop succeeding or failing. -/
theorem InvG_clean (s : KvStore) (fs : Fs) (hinv : InvG s fs) :
    InvG (cleanOp s fs).1 (cleanOp s fs).2.1 := by
  obtain ⟨o1, o2, o3, o4, o5⟩ :=
    openCreateAt_invG fs (wadd s.curr_gen 1) hinv.fsChains hinv.linkChains
  rcases hoc : openCreateAt fs (wadd s.curr_gen 1) with ⟨fs1, cd⟩
  rw [hoc] at o1 o2 o3 o4 o5
  have hE : ∀ kp ∈ s.index, ∃ d, lookupA s.readers kp.2.gen = some d ∧
      (lookupA fs1.descs d).isSome := by
    intro kp hkp
    have h1 := hinv.ptrReader kp hkp
    cases hd : lookupA s.readers kp.2.gen with
    | none => rw [hd] at h1; simp at h1
    | some d =>
      exact ⟨d, rfl, o4 d (hinv.readerDesc (kp.2.gen, d) (lookupA_mem _ _ _ hd))⟩
  have hC1 : ∀ dd ∈ fs1.descs, (lookupA fs1.inodes dd.2.inode).isSome := o2
  have hcd1 : (lookupA fs1.descs cd).isSome := o1
  obtain ⟨fs2, entries2, off2, hfold, hdS, hiS, hlinks2, hnext2, hgens, hC2⟩ :=
    cleanFold_live s.readers cd (wadd s.curr_gen 1) s.index fs1 0 hE hC1 hcd1
  have hL2 : ∀ gi ∈ fs2.links, (lookupA fs2.inodes gi.2).isSome := by
    intro gi hgi
    rw [hlinks2] at hgi
    rw [hiS]
    exact o3 gi hgi
  have hcd2S : (lookupA fs2.descs cd).isSome := by
    rw [hdS]
    exact hcd1
  cases hcdsc : lookupA fs2.descs cd with
  | none => rw [hcdsc] at hcd2S; simp at hcd2S
  | some cdsc =>
    have hcc2 := hC2 (cd, cdsc) (lookupA_mem _ _ _ hcdsc)
    cases hcc : lookupA fs2.inodes cdsc.inode with
    | none => rw [hcc] at hcc2; simp at hcc2
    | some ccontent =>
      simp only [cleanOp, hoc, hfold, hcdsc, hcc]
      by_cases hsz : ccontent.length > SIZE_THRESHOLD
      · -- oversized output: open yet another handle at the old active path
        obtain ⟨a1, a2, a3, a4, a5⟩ := openCreateAt_invG fs2 s.curr_gen hC2 hL2
        rcases hoc2 : openCreateAt fs2 s.curr_gen with ⟨fs3, nd⟩
        rw [hoc2] at a1 a2 a3 a4 a5
        rw [if_pos hsz]
        have outA : ∀ (fs4 : Fs) (st : Nat), fs4.descs = fs3.descs →
            fs4.inodes = fs3.inodes → (∀ gi ∈ fs4.links, gi ∈ fs3.links) →
            InvG { s with
              index := entries2,
              readers := insertA [(wadd s.curr_gen 1, cd)] (wadd s.curr_gen 2) nd,
              writerDesc := nd,
              curr_gen := wadd s.curr_gen 2,
              stale_bytes := st } fs4 := by
          intro fs4 st m1 m2 m4
          constructor
          · intro kp hkp
            show (lookupA (insertA [(wadd s.curr_gen 1, cd)] (wadd s.curr_gen 2) nd)
              kp.2.gen).isSome
            rw [hgens kp hkp, lookupA_insertA]
            by_cases hx : wadd s.curr_gen 1 = wadd s.curr_gen 2
            · rw [if_pos hx]
              rfl
            · rw [if_neg hx, lookupA_cons, if_pos rfl]
              rfl
          · show (lookupA (insertA [(wadd s.curr_gen 1, cd)] (wadd s.curr_gen 2) nd)
              (wadd s.curr_gen 2)).isSome
            rw [lookupA_insertA, if_pos rfl]
            rfl
          · intro gd hgd
            have hgd' : gd ∈ insertA [(wadd s.curr_gen 1, cd)]
              (wadd s.curr_gen 2) nd := hgd
            show (lookupA fs4.descs gd.2).isSome
            rw [m1]
            rcases mem_insertA _ _ _ _ hgd' with hold | hnew
            · rcases List.mem_cons.mp hold with hh | hh
              · rw [hh]
                show (lookupA fs3.descs cd).isSome
                apply a4
                rw [hcdsc]
                rfl
              · exact absurd hh (List.not_mem_nil _)
            · rw [hnew]
              exact a1
          · intro dd hdd
            rw [m1] at hdd
            show (lookupA fs4.inodes dd.2.inode).isSome
            rw [m2]
            exact a2 dd hdd
          · intro gi hgi
            show (lookupA fs4.inodes gi.2).isSome
            rw [m2]
            exact a3 gi (m4 gi hgi)
        obtain ⟨m1, m2, m3, m4⟩ := delLoop_shrink (keysA s.readers) fs3
        split
        · rename_i fs4 e heq
          have heq' : delLoop fs3 (keysA s.readers) = (fs4, Except.error e) := heq
          rw [heq'] at m1 m2 m4
          exact outA fs4 s.stale_bytes m1 m2 m4
        · rename_i fs4 heq
          have heq' : delLoop fs3 (keysA s.readers) = (fs4, Except.ok ()) := heq
          rw [heq'] at m1 m2 m4
          exact outA fs4 0 m1 m2 m4
      · -- the compaction target becomes the active generation
        rw [if_neg hsz]
        have outB : ∀ (fs4 : Fs) (st : Nat), fs4.descs = fs2.descs →
            fs4.inodes = fs2.inodes → (∀ gi ∈ fs4.links, gi ∈ fs2.links) →
            InvG { s with
              index := entries2,
              readers := [(wadd s.curr_gen 1, cd)],
              writerDesc := cd,
              curr_gen := wadd s.curr_gen 1,
              stale_bytes := st } fs4 := by
          intro fs4 st m1 m2 m4
          constructor
          · intro kp hkp
            show (lookupA [(wadd s.curr_gen 1, cd)] kp.2.gen).isSome
            rw [hgens kp hkp, lookupA_cons, if_pos rfl]
            rfl
          · show (lookupA [(wadd s.curr_gen 1, cd)] (wadd s.curr_gen 1)).isSome
            rw [lookupA_cons, if_pos rfl]
            rfl
          · intro gd hgd
            rcases List.mem_cons.mp hgd with hh | hh
            · rw [hh]
              show (lookupA fs4.descs cd).isSome
              rw [m1, hcdsc]
              rfl
            · exact absurd hh (List.not_mem_nil _)
          · intro dd hdd
            rw [m1] at hdd
            show (lookupA fs4.inodes dd.2.inode).isSome
            rw [m2]
            exact hC2 dd hdd
          · intro gi hgi
            show (lookupA fs4.inodes gi.2).isSome
            rw [m2]
            exact hL2 gi (m4 gi hgi)
        obtain ⟨m1, m2, m3, m4⟩ := delLoop_shrink (keysA s.readers) fs2
        split
        · rename_i fs4 e heq
          have heq' : delLoop fs2 (keysA s.readers) = (fs4, Except.error e) := heq
          rw [heq'] at m1 m2 m4
          exact outB fs4 s.stale_bytes m1 m2 m4
        · rename_i fs4 heq
          have heq' : delLoop fs2 (keysA s.readers) = (fs4, Except.ok ()) := heq
          rw [heq'] at m1 m2 m4
          exact outB fs4 0 m1 m2 m4

/-- A tombstone or record append through the active writer, with any index
rewrite whose new entries carry the active generation, preserves the
general invariant. -/
theorem InvG_writeIdx (s : KvStore) (fs : Fs) (hinv : InvG s fs) (dsc : Desc)
    (content bytes : List Char)
    (hdsc : lookupA fs.descs s.writerDesc = some dsc)
    (idx' : List (String × CommandPointer)) (st' : Nat)
    (hidx : ∀ kp ∈ idx', kp ∈ s.index ∨ kp.2.gen = s.curr_gen) :
    InvG { s with index := idx', stale_bytes := st' }
      (writeThrough fs s.writerDesc dsc content bytes) := by
  constructor
  · intro kp hkp
    rcases hidx kp hkp with hold | hgen
    · exact hinv.ptrReader kp hold
    · show (lookupA s.readers kp.2.gen).isSome
      rw [hgen]
      exact hinv.currReader
  · exact hinv.currReader
  · intro gd hgd
    show (lookupA (insertA fs.descs s.writerDesc
      ⟨dsc.inode, dsc.off + bytes.length⟩) gd.2).isSome
    exact lookupA_insertA_isSome _ _ _ _ (hinv.readerDesc gd hgd)
  · intro dd hdd
    have hdd' : dd ∈ insertA fs.descs s.writerDesc
      ⟨dsc.inode, dsc.off + bytes.length⟩ := hdd
    show (lookupA (insertA fs.inodes dsc.inode (writeAt content dsc.off bytes))
      dd.2.inode).isSome
    rcases mem_insertA _ _ _ _ hdd' with hold | hnew
    · exact lookupA_insertA_isSome _ _ _ _ (hinv.fsChains dd hold)
    · rw [hnew]
      show (lookupA (insertA fs.inodes dsc.inode (writeAt content dsc.off bytes))
        dsc.inode).isSome
      rw [lookupA_insertA, if_pos rfl]
      rfl
  · intro gi hgi
    have hgi' : gi ∈ fs.links := hgi
    show (lookupA (insertA fs.inodes dsc.inode (writeAt content dsc.off bytes))
      gi.2).isSome
    exact lookupA_insertA_isSome _ _ _ _ (hinv.linkChains gi hgi')

/-- A seek (one description's offset moves, inode unchanged) preserves the
general invariant. -/
theorem InvG_descOff (s : KvStore) (fs : Fs) (hinv : InvG s fs) (d : Nat)
    (dsc : Desc) (off' : Nat) (hdsc : lookupA fs.descs d = some dsc) :
    InvG s { fs with descs := insertA fs.descs d ⟨dsc.inode, off'⟩ } := by
  constructor
  · exact hinv.ptrReader
  · exact hinv.currReader
  · intro gd hgd
    show (lookupA (insertA fs.descs d ⟨dsc.inode, off'⟩) gd.2).isSome
    exact lookupA_insertA_isSome _ _ _ _ (hinv.readerDesc gd hgd)
  · intro dd hdd
    have hdd' : dd ∈ insertA fs.descs d ⟨dsc.inode, off'⟩ := hdd
    show (lookupA fs.inodes dd.2.inode).isSome
    rcases mem_insertA _ _ _ _ hdd' with hold | hnew
    · exact hinv.fsChains dd hold
    · rw [hnew]
      show (lookupA fs.inodes dsc.inode).isSome
      exact hinv.fsChains (d, dsc) (lookupA_mem _ _ _ hdsc)
  · exact hinv.linkChains

/-- `set` preserves the general invariant. -/
theorem InvG_set (s : KvStore) (fs : Fs) (k v : String) (hinv : InvG s fs) :
    InvG (setOp s fs k v).1 (setOp s fs k v).2.1 := by
  cases hdsc : lookupA fs.descs s.writerDesc with
  | none =>
    simp only [setOp, hdsc]
    exact hinv
  | some dsc =>
    cases hcont : lookupA fs.inodes dsc.inode with
    | none =>
      simp only [setOp, hdsc, hcont]
      exact hinv
    | some content =>
      have hmid : InvG { s with
          index := insertA s.index k ⟨s.curr_gen, dsc.off,
            dsc.off + (encodeC (Command.Set k v)).length - dsc.off⟩,
          stale_bytes := s.stale_bytes +
            (match lookupA s.index k with | some o => o.length | none => 0) }
          (writeThrough fs s.writerDesc dsc content (encodeC (Command.Set k v))) := by
        apply InvG_writeIdx s fs hinv dsc content _ hdsc
        intro kp hkp
        rcases mem_insertA _ _ _ _ hkp with hold | hnew
        · exact Or.inl hold
        · right
          rw [hnew]
      simp only [setOp, hdsc, hcont]
      split
      · split
        · rename_i s2 fs2 e heq
          have hres := InvG_clean _ _ hmid
          rw [heq] at hres
          exact hres
        · rename_i s2 fs2 val heq
          have hres := InvG_clean _ _ hmid
          rw [heq] at hres
          exact hres
      · exact hmid

/-- `remove` preserves the general invariant. -/
theorem InvG_remove (s : KvStore) (fs : Fs) (k : String) (hinv : InvG s fs) :
    InvG (removeOp s fs k).1 (removeOp s fs k).2.1 := by
  cases hdsc : lookupA fs.descs s.writerDesc with
  | none =>
    simp only [removeOp, hdsc]
    exact hinv
  | some dsc =>
    cases hcont : lookupA fs.inodes dsc.inode with
    | none =>
      simp only [removeOp, hdsc, hcont]
      exact hinv
    | some content =>
      cases hold : lookupA s.index k with
      | none =>
        simp only [removeOp, hdsc, hcont, hold]
        exact InvG_writeIdx s fs hinv dsc content _ hdsc s.index s.stale_bytes
          (fun kp h => Or.inl h)
      | some old =>
        have hmid : InvG { s with
            index := eraseA s.index k,
            stale_bytes := s.stale_bytes + old.length }
            (writeThrough fs s.writerDesc dsc content (encodeC (Command.Remove k))) := by
          apply InvG_writeIdx s fs hinv dsc content _ hdsc
          intro kp hkp
          exact Or.inl (mem_eraseA _ _ _ hkp)
        simp only [removeOp, hdsc, hcont, hold]
        split
        · split
          · rename_i s2 fs2 e heq
            have hres := InvG_clean _ _ hmid
            rw [heq] at hres
            exact hres
          · rename_i s2 fs2 val heq
            have hres := InvG_clean _ _ hmid
            rw [heq] at hres
            exact hres
        · exact hmid

/-- `get` preserves the general invariant. -/
theorem InvG_get (s : KvStore) (fs : Fs) (k : String) (hinv : InvG s fs) :
    InvG (getOp s fs k).1 (getOp s fs k).2.1 := by
  cases hik : lookupA s.index k with
  | none =>
    simp only [getOp, hik]
    exact hinv
  | some p =>
    cases hrd : lookupA s.readers p.gen with
    | none =>
      simp only [getOp, hik, hrd]
      exact hinv
    | some d =>
      cases hd : lookupA fs.descs d with
      | none =>
        simp only [getOp, hik, hrd, hd]
        exact hinv
      | some dsc =>
        cases hic : lookupA fs.inodes dsc.inode with
        | none =>
          simp only [getOp, hik, hrd, hd, hic]
          exact hinv
        | some content =>
          have hfs1 := InvG_descOff s fs hinv d dsc
            (p.start + (readRange content p.start p.length).length) hd
          simp only [getOp, hik, hrd, hd, hic]
          split
          · exact hfs1
          · exact hfs1
          · exact hfs1

/-- Every state reachable from `open` on any directory satisfies the
general invariant. -/
theorem InvG_reach (s : KvStore) (fs : Fs) (h : ReachG s fs) : InvG s fs := by
  induction h with
  | openDir fsd s fs hdir h0 => exact open_InvG fsd s fs hdir h0
  | stepSet s fs k v hr ih => exact InvG_set s fs k v ih
  | stepGet s fs k hr ih => exact InvG_get s fs k ih
  | stepRemove s fs k hr ih => exact InvG_remove s fs k ih
  | stepClean s fs hr ih => exact InvG_clean s fs ih

/-- Counterexample to C7's "never references a deleted generation": open
the directory `fsW`, which holds the extreme legal generation numbers 0 and
2^64 - 1.  `open` reuses 2^64 - 1 as active; `clean_stale_data` then wraps
the counter to generation 0, reuses the EXISTING `0.log` as its compaction
target, and its deletion loop removes every previously open generation —
including `0.log` itself.  The call reports success, and afterwards the
index still points into generation 0, whose reader is open but whose file
has been deleted (the directory is empty).  `get` still answers from the
open handle, so the reader half of the claim survives even here. -/
theorem pointer_deleted_gen_cex :
    DirFs fsW ∧
    openOp fsW = Except.ok (sW, fsW1) ∧
    (cleanOp sW fsW1).2.2 = Except.ok 0 ∧
    lookupA (cleanOp sW fsW1).1.index "k" = some ⟨0, 0, 17⟩ ∧
    (lookupA (cleanOp sW fsW1).1.readers 0).isSome ∧
    (cleanOp sW fsW1).2.1.links = [] ∧
    getVal (cleanOp sW fsW1).1 (cleanOp sW fsW1).2.1 "k" = Except.ok (some "v") := by
  refine ⟨⟨rfl, by decide⟩, by decide, by decide, by decide, by decide, by decide,
    by decide⟩

/-- C7, amended: in every store state reachable from a successful `open` on
ANY directory (fresh or holding arbitrarily many generations) via `set`,
`get`, `remove` and `clean_stale_data`, every pointer held by the index
references a generation with a currently-open reader, so the
`MissingLogfile` error branch of `get` is unreachable; and from a fresh
(empty) directory the referenced generation is moreover always on disk or
the active one.  (Over arbitrary directories that last part fails: see the
wraparound counterexample.) -/
theorem pointer_reader_general :
    (∀ s fs, ReachG s fs →
      (∀ k p, lookupA s.index k = some p → (lookupA s.readers p.gen).isSome) ∧
      (∀ k g, getVal s fs k ≠ Except.error (KvsError.MissingLogfile g))) ∧
    (∀ s fs, Reach s fs → ∀ k p, lookupA s.index k = some p →
      (lookupA fs.links p.gen).isSome ∨ p.gen = s.curr_gen) := by
  constructor
  · intro s fs h
    have hinv := InvG_reach s fs h
    constructor
    · intro k p hp
      exact hinv.ptrReader (k, p) (lookupA_mem _ _ _ hp)
    · intro k g
      unfold getVal
      cases hik : lookupA s.index k with
      | none => simp [getOp, hik]
      | some p =>
        have hr := hinv.ptrReader (k, p) (lookupA_mem _ _ _ hik)
        cases hrd : lookupA s.readers p.gen with
        | none => rw [hrd] at hr; simp at hr
        | some d =>
          cases hd : lookupA fs.descs d with
          | none => simp [getOp, hik, hrd, hd]
          | some dsc =>
            cases hic : lookupA fs.inodes dsc.inode with
            | none => simp [getOp, hik, hrd, hd, hic]
            | some content =>
              simp only [getOp, hik, hrd, hd, hic]
              split <;> simp
  · intro s fs h k p hp
    exact (Inv_reach s fs h).ptrLinkedOrCurr k p hp

/-- The C7 amendment instantiated at the state `open` yields on a fresh
directory. -/
theorem pointer_reader_general_witness :
    ((∀ k p, lookupA st0.index k = some p → (lookupA st0.readers p.gen).isSome) ∧
      (∀ k g, getVal st0 fs0 k ≠ Except.error (KvsError.MissingLogfile g))) ∧
    (∀ k p, lookupA st0.index k = some p →
      (lookupA fs0.links p.gen).isSome ∨ p.gen = st0.curr_gen) :=
  ⟨pointer_reader_general.1 st0 fs0
    (ReachG.openDir emptyFs st0 fs0 ⟨rfl, fun gi h => absurd h (List.not_mem_nil _)⟩ rfl),
   fun k p hp =>
     pointer_reader_general.2 st0 fs0 (Reach.openEmpty st0 fs0 rfl) k p hp⟩

theorem sliceOf_length_le (readers : List (Nat × Nat)) (fs : Fs)
    (p : CommandPointer) : (sliceOf readers fs p).length ≤ p.length := by
  unfold sliceOf
  split
  · simp
  · split
    · simp
    · split
      · simp
      · exact readRange_length_le _ _ _

theorem blobOf_length_le (readers : List (Nat × Nat)) (fs : Fs) :
    ∀ entries, (blobOf readers fs entries).length ≤ liveLen entries := by
  intro entries
  induction entries with
  | nil => simp [blobOf, liveLen]
  | cons kp rest ih =>
    obtain ⟨k, p⟩ := kp
    rw [blobOf_cons]
    simp only [List.length_append, liveLen, List.map_cons, List.sum_cons]
    have h1 := sliceOf_length_le readers fs p
    simp only [liveLen] at ih
    omega

/-- Counterexample to C4's "returns the number of bytes reclaimed": after a
remove of an absent key on a fresh store, the stale counter is still zero,
so `clean_stale_data` returns 0 — yet it deletes the 14-byte tombstone, so
14 bytes were actually reclaimed. -/
theorem clean_reclaim_report_cex :
    (cleanOp (removeOp st0 fs0 "x").1 (removeOp st0 fs0 "x").2.1).2.2 =
      Except.ok 0 ∧
    diskBytes (removeOp st0 fs0 "x").2.1 = 14 ∧
    diskBytes (cleanOp (removeOp st0 fs0 "x").1 (removeOp st0 fs0 "x").2.1).2.1
      = 0 := by
  decide

/-- C4 amended: for a store whose reader set is the single active
generation (the normal state), `clean_stale_data` succeeds and returns the
PRIOR value of the stale-byte counter — not the number of bytes actually
reclaimed — resets the counter to zero, leaves `get` unchanged for every
key (in particular when the counter was zero), and leaves total on-disk
bytes at most one segment's worth of live data. -/
theorem clean_zero_stale_amended (s : KvStore) (fs : Fs) (d0 : Nat)
    (hinv : Inv s fs) (hrd : s.readers = [(s.curr_gen, d0)]) :
    (cleanOp s fs).2.2 = Except.ok s.stale_bytes ∧
    (cleanOp s fs).1.stale_bytes = 0 ∧
    (∀ k, getVal (cleanOp s fs).1 (cleanOp s fs).2.1 k = getVal s fs k) ∧
    diskBytes (cleanOp s fs).2.1 ≤ liveLen s.index := by
  obtain ⟨g0, i0, hlg⟩ := hinv.linksSingle
  have hcurrLt := hinv.currLt
  have hw1 : wadd s.curr_gen 1 ≠ s.curr_gen := wadd_one_ne s.curr_gen hcurrLt
  have hlcex : ∃ ic, lookupA fs.links s.curr_gen = some ic := by
    rcases hinv.form with ⟨d0', ic', hrd1, hlc⟩ | ⟨p0, d1, d2, ic', hrd2, _, _, _, _⟩
    · exact ⟨ic', hlc⟩
    · rw [hrd] at hrd2
      simp at hrd2
  obtain ⟨ic, hlc⟩ := hlcex
  rw [hlg] at hlc
  obtain ⟨hgeq, hieq⟩ := lookupA_singleton g0 s.curr_gen i0 ic hlc
  have hflinks : fs.links = [(s.curr_gen, ic)] := by rw [hlg, ← hgeq, hieq]
  have hcgNone : lookupA fs.links (wadd s.curr_gen 1) = none := by
    rw [hflinks, lookupA_cons, if_neg hw1, lookupA_nil]
  have hch : ∀ kp ∈ s.index, ∃ d dsc c, lookupA s.readers kp.2.gen = some d ∧
      lookupA fs.descs d = some dsc ∧ lookupA fs.inodes dsc.inode = some c := by
    intro kp hkp
    have hlook : lookupA s.index kp.1 = some kp.2 :=
      lookupA_of_mem_nodup s.index kp.1 kp.2 hinv.idxNodup hkp
    have hrdr := hinv.ptrReader kp.1 kp.2 hlook
    cases hd : lookupA s.readers kp.2.gen with
    | none => rw [hd] at hrdr; cases hrdr
    | some d =>
      have hds := hinv.readerDesc kp.2.gen d hd
      cases hdsc : lookupA fs.descs d with
      | none => rw [hdsc] at hds; cases hds
      | some dsc =>
        have hic := hinv.fsChains d dsc hdsc
        cases hc : lookupA fs.inodes dsc.inode with
        | none => rw [hc] at hic; cases hic
        | some c => exact ⟨d, dsc, c, rfl, hdsc, hc⟩
  obtain ⟨fs2, index', hcd2, hci2, hi2, hd2, hlinks2, hnext2, hrel2, s1, fs3, hshape, hEq⟩ :=
    cleanOp_cases s fs hinv.idxNodup hch hinv.ids hcgNone
  have hkeyRel : ∀ a b, CleanRel s.readers fs (wadd s.curr_gen 1)
      (blobOf s.readers fs s.index) a b → b.1 = a.1 := fun a b hr => hr.1
  have hkeysR : keysA s.readers = [s.curr_gen] := by rw [hrd]; rfl
  have hlinks2' : fs2.links = [(s.curr_gen, ic), (wadd s.curr_gen 1, fs.nextId)] := by
    rw [hlinks2, hflinks]; rfl
  have hlcurr2 : lookupA fs2.links s.curr_gen = some ic := by
    rw [hlinks2']
    simp [lookupA_cons]
  have hdel : ∀ fsx : Fs, fsx.links = fs2.links →
      delLoop fsx [s.curr_gen] =
        ({ fsx with links := [(wadd s.curr_gen 1, fs.nextId)] }, Except.ok ()) := by
    intro fsx hfx
    have hlx : lookupA fsx.links s.curr_gen = some ic := by rw [hfx]; exact hlcurr2
    have her : eraseA fsx.links s.curr_gen = [(wadd s.curr_gen 1, fs.nextId)] := by
      rw [hfx, hlinks2']
      simp [eraseA]
    simp only [delLoop, hlx, her]
  -- the shared per-key argument for get preservation
  have hgetEq : ∀ (rs : List (Nat × Nat)) (fsn : Fs) (wd cg sb : Nat) (k : String),
      lookupA rs (wadd s.curr_gen 1) = some (fs.nextId + 1) →
      lookupA fsn.descs (fs.nextId + 1) =
        some ⟨fs.nextId, (blobOf s.readers fs s.index).length⟩ →
      lookupA fsn.inodes fs.nextId = some (blobOf s.readers fs s.index) →
      getVal { index := index', readers := rs, writerDesc := wd, curr_gen := cg, stale_bytes := sb } fsn k = getVal s fs k := by
    intro rs fsn wd cg sb k hrs hdesc hinode
    rcases lookupA_forall2 hkeyRel s.index index' hrel2 k with ⟨hn, hn'⟩ |
      ⟨p, p', hlk, hlk', hr⟩
    · simp [getVal, getOp, hn, hn']
    · obtain ⟨hk1, hgenp, hlenp, hlele, hread⟩ := hr
      have hpsome := hinv.ptrReader k p hlk
      have hpg : p.gen = s.curr_gen := by
        by_contra hne
        rw [hrd, lookupA_cons, if_neg hne, lookupA_nil] at hpsome
        simp at hpsome
      have hrdp : lookupA s.readers p.gen = some d0 := by
        rw [hrd, lookupA_cons, if_pos hpg]
      have hd0 := hinv.readerDesc p.gen d0 hrdp
      cases hdsc0 : lookupA fs.descs d0 with
      | none => rw [hdsc0] at hd0; simp at hd0
      | some dsc0 =>
        have hc0s := hinv.fsChains d0 dsc0 hdsc0
        cases hc0 : lookupA fs.inodes dsc0.inode with
        | none => rw [hc0] at hc0s; simp at hc0s
        | some c0 =>
          have hslice : sliceOf s.readers fs p = readRange c0 p.start p.length :=
            sliceOf_eq_of_chain s.readers fs p d0 dsc0 c0 hrdp hdsc0 hc0
          have hrnew : lookupA rs p'.gen = some (fs.nextId + 1) := by
            rw [hgenp]
            exact hrs
          simp only [getVal, getOp, hlk, hrdp, hdsc0, hc0, hlk', hrnew, hdesc, hinode]
          rw [hread, hslice]
          cases hpc : parseCommand (readRange c0 p.start p.length) with
          | none => rfl
          | some pr =>
            obtain ⟨cmd, rest⟩ := pr
            cases cmd with
            | Set k2 v2 => cases rest with | nil => rfl | cons a b => rfl
            | Remove k2 => cases rest with | nil => rfl | cons a b => rfl
  rcases hshape with ⟨hsz, hs1, hfs3⟩ | ⟨hsz, hs1, hfs3⟩
  · -- compaction target stays active
    rw [hkeysR, hfs3, hdel fs2 rfl] at hEq
    have hEq2 : cleanOp s fs = ({ s1 with stale_bytes := 0 }, { fs2 with links := [(wadd s.curr_gen 1, fs.nextId)] }, Except.ok s.stale_bytes) := hEq
    have h5 : lookupA ({ fs2 with links := [(wadd s.curr_gen 1, fs.nextId)] } : Fs).inodes fs.nextId = some (blobOf s.readers fs s.index) := hci2
    have h4 : lookupA ({ fs2 with links := [(wadd s.curr_gen 1, fs.nextId)] } : Fs).descs (fs.nextId + 1) = some ⟨fs.nextId, (blobOf s.readers fs s.index).length⟩ := hcd2
    refine ⟨?_, ?_, ?_, ?_⟩
    · rw [hEq2]
    · rw [hEq2, hs1]
    · intro k
      rw [hEq2, hs1]
      exact hgetEq [(wadd s.curr_gen 1, fs.nextId + 1)]
        { fs2 with links := [(wadd s.curr_gen 1, fs.nextId)] }
        (fs.nextId + 1) (wadd s.curr_gen 1) 0 k
        (by rw [lookupA_cons, if_pos rfl]) h4 h5
    · rw [hEq2]
      simp only [diskBytes, List.foldr, h5]
      have := blobOf_length_le s.readers fs s.index
      simpa using this
  · -- oversized compaction target: yet another generation is opened
    rw [openCreateAt_reuse fs2 s.curr_gen ic hlcurr2] at hs1 hfs3
    rw [hkeysR, hfs3] at hEq
    rw [hdel { fs2 with descs := insertA fs2.descs fs2.nextId ⟨ic, 0⟩, nextId := fs2.nextId + 1 } rfl] at hEq
    have hEq2 : cleanOp s fs = ({ s1 with stale_bytes := 0 }, { fs2 with descs := insertA fs2.descs fs2.nextId ⟨ic, 0⟩, links := [(wadd s.curr_gen 1, fs.nextId)], nextId := fs2.nextId + 1 }, Except.ok s.stale_bytes) := hEq
    have hreaders1 : insertA [(wadd s.curr_gen 1, fs.nextId + 1)] (wadd s.curr_gen 2)
        fs2.nextId = [(wadd s.curr_gen 1, fs.nextId + 1), (wadd s.curr_gen 2, fs2.nextId)] := by
      apply insertA_of_lookup_none
      rw [lookupA_cons]
      rw [if_neg (by intro hc; rw [← wadd_wadd_one] at hc; exact wadd_one_ne (wadd s.curr_gen 1) (wadd_lt _ _) hc)]
      rfl
    have hcd4 : lookupA (insertA fs2.descs fs2.nextId ⟨ic, 0⟩) (fs.nextId + 1) =
        some ⟨fs.nextId, (blobOf s.readers fs s.index).length⟩ := by
      rw [lookupA_insertA, if_neg (by rw [hnext2]; omega), hcd2]
    have h5 : lookupA ({ fs2 with descs := insertA fs2.descs fs2.nextId ⟨ic, 0⟩, links := [(wadd s.curr_gen 1, fs.nextId)], nextId := fs2.nextId + 1 } : Fs).inodes fs.nextId = some (blobOf s.readers fs s.index) := hci2
    have h4 : lookupA ({ fs2 with descs := insertA fs2.descs fs2.nextId ⟨ic, 0⟩, links := [(wadd s.curr_gen 1, fs.nextId)], nextId := fs2.nextId + 1 } : Fs).descs (fs.nextId + 1) = some ⟨fs.nextId, (blobOf s.readers fs s.index).length⟩ := hcd4
    refine ⟨?_, ?_, ?_, ?_⟩
    · rw [hEq2]
    · rw [hEq2, hs1]
    · intro k
      rw [hEq2, hs1, hreaders1]
      exact hgetEq [(wadd s.curr_gen 1, fs.nextId + 1), (wadd s.curr_gen 2, fs2.nextId)]
        { fs2 with descs := insertA fs2.descs fs2.nextId ⟨ic, 0⟩, links := [(wadd s.curr_gen 1, fs.nextId)], nextId := fs2.nextId + 1 }
        fs2.nextId (wadd s.curr_gen 2) 0 k
        (by rw [lookupA_cons, if_pos rfl]) h4 h5
    · rw [hEq2]
      simp only [diskBytes, List.foldr, h5]
      have := blobOf_length_le s.readers fs s.index
      simpa using this

/-- The C4 amendment at the state `open` yields on a fresh directory. -/
theorem clean_zero_stale_amended_witness :
    (cleanOp st0 fs0).2.2 = Except.ok st0.stale_bytes ∧
    (cleanOp st0 fs0).1.stale_bytes = 0 ∧
    (∀ k, getVal (cleanOp st0 fs0).1 (cleanOp st0 fs0).2.1 k = getVal st0 fs0 k) ∧
    diskBytes (cleanOp st0 fs0).2.1 ≤ liveLen st0.index :=
  clean_zero_stale_amended st0 fs0 1 Inv_base rfl

/-- Characterisation of the buggy oversized-compaction run on the fabricated
over-threshold store: compaction succeeds, the store moves to generation
`active + 2` with writer description 4, but that description was opened at
the OLD active path (inode 0), and after the deletion loop the only linked
file is the compaction target `active + 1` (inode 2). -/
theorem cleanOp_fab : ∃ (index2 : List (String × CommandPointer))
    (descs2 : List (Nat × Desc)) (inodes2 : List (Nat × List Char)),
    keysA index2 = ["a"] ∧
    cleanOp fabS fabFs = ({ index := index2, readers := [(wadd 1 1, 3), (wadd 1 2, 4)], writerDesc := 4, curr_gen := wadd 1 2, stale_bytes := 0 }, { inodes := inodes2, descs := insertA descs2 4 ⟨0, 0⟩, links := [(wadd 1 1, 2)], nextId := 5 }, Except.ok 0) ∧
    lookupA (insertA descs2 4 ⟨0, 0⟩) 4 = some ⟨0, 0⟩ ∧
    lookupA inodes2 0 = some (List.replicate bigN 'a') := by
  have hnodup : (keysA fabS.index).Nodup := by decide
  have hch : ∀ kp ∈ fabS.index, ∃ d dsc c, lookupA fabS.readers kp.2.gen = some d ∧
      lookupA fabFs.descs d = some dsc ∧ lookupA fabFs.inodes dsc.inode = some c := by
    intro kp hkp
    rw [show fabS.index = [("a", ⟨1, 0, bigN⟩)] from rfl] at hkp
    simp only [List.mem_singleton] at hkp
    subst hkp
    exact ⟨1, ⟨0, bigN⟩, List.replicate bigN 'a', rfl, rfl, rfl⟩
  have hids : idsBound fabFs := by
    refine ⟨?_, ?_, ?_⟩
    · intro i c h
      obtain ⟨h1, _⟩ := lookupA_singleton _ i _ c h
      rw [h1]
      decide
    · intro d dsc h
      obtain ⟨h1, h2⟩ := lookupA_singleton _ d _ dsc h
      rw [h1, h2]
      exact ⟨by decide, by decide⟩
    · intro g i h
      obtain ⟨_, h2⟩ := lookupA_singleton _ g _ i h
      rw [h2]
      decide
  have hcgNone : lookupA fabFs.links (wadd fabS.curr_gen 1) = none := by decide
  obtain ⟨fs2, index', hcd2, hci2, hi2, hd2, hlinks2, hnext2, hrel2, s1, fs3, hshape, hEq⟩ :=
    cleanOp_cases fabS fabFs hnodup hch hids hcgNone
  have hblob : blobOf fabS.readers fabFs fabS.index = List.replicate bigN 'a' := by
    rw [show fabS.index = [("a", ⟨1, 0, bigN⟩)] from rfl, blobOf_cons, blobOf_nil,
      List.append_nil]
    rw [sliceOf_eq_of_chain fabS.readers fabFs ⟨1, 0, bigN⟩ 1 ⟨0, bigN⟩
      (List.replicate bigN 'a') rfl rfl rfl]
    rw [readRange]
    simp [List.take_replicate]
  have hlen : (blobOf fabS.readers fabFs fabS.index).length = bigN := by
    rw [hblob, List.length_replicate]
  have hgt : (blobOf fabS.readers fabFs fabS.index).length > SIZE_THRESHOLD := by
    rw [hlen]
    decide
  have hn2 : fs2.nextId = 4 := by
    rw [hnext2]
    decide
  have hlinks2' : fs2.links = [(1, 0), (wadd fabS.curr_gen 1, fabFs.nextId)] := by
    rw [hlinks2]
    rfl
  have hl1 : lookupA fs2.links 1 = some 0 := by
    rw [hlinks2']
    rfl
  rcases hshape with ⟨hsz, _, _⟩ | ⟨hsz, hs1, hfs3⟩
  · omega
  · rw [openCreateAt_reuse fs2 fabS.curr_gen 0 hl1] at hs1 hfs3
    have hkeysR : keysA fabS.readers = [1] := rfl
    have hlx : lookupA ({ fs2 with descs := insertA fs2.descs fs2.nextId ⟨0, 0⟩, nextId := fs2.nextId + 1 } : Fs).links 1 = some 0 := hl1
    have her : eraseA ({ fs2 with descs := insertA fs2.descs fs2.nextId ⟨0, 0⟩, nextId := fs2.nextId + 1 } : Fs).links 1 = [(wadd fabS.curr_gen 1, fabFs.nextId)] := by
      show eraseA fs2.links 1 = _
      rw [hlinks2']
      simp [eraseA]
    have hdel : delLoop { fs2 with descs := insertA fs2.descs fs2.nextId ⟨0, 0⟩, nextId := fs2.nextId + 1 } [1] = ({ fs2 with descs := insertA fs2.descs fs2.nextId ⟨0, 0⟩, nextId := fs2.nextId + 1, links := [(wadd fabS.curr_gen 1, fabFs.nextId)] }, Except.ok ()) := by
      simp only [delLoop, hlx, her]
    rw [hkeysR, hfs3, hdel] at hEq
    refine ⟨index', fs2.descs, fs2.inodes, ?_, ?_, ?_, ?_⟩
    · have hkk := keysA_forall2 (fun a b h => h.1) fabS.index index' hrel2
      rw [hkk]
      rfl
    · rw [hEq, hs1, hn2]
      rfl
    · rw [lookupA_insertA, if_pos rfl]
    · rw [hi2 0 (by decide)]
      rfl

/-- C3: when the flushed compaction target exceeds the threshold the engine
does move to generation `active + 2` and compaction reports success — but
the writer it installs was opened at the OLD active generation's path
(kvs.rs line 240 passes `self.curr_gen`, not `new_gen`), which the deletion
loop then unlinks: afterwards the new active generation has NO file on
disk, and the active writer's description points at an inode that no
directory entry links to. -/
theorem clean_oversized_unlinked_demo :
    (cleanOp fabS fabFs).2.2 = Except.ok 0 ∧
    (cleanOp fabS fabFs).1.curr_gen = wadd fabS.curr_gen 2 ∧
    lookupA (cleanOp fabS fabFs).2.1.links (wadd fabS.curr_gen 2) = none ∧
    (∃ dsc, lookupA (cleanOp fabS fabFs).2.1.descs
        (cleanOp fabS fabFs).1.writerDesc = some dsc ∧
      ∀ g i, lookupA (cleanOp fabS fabFs).2.1.links g = some i → i ≠ dsc.inode) := by
  obtain ⟨index2, descs2, inodes2, hkeys, hEqn, hd4, hi0⟩ := cleanOp_fab
  refine ⟨?_, ?_, ?_, ?_⟩
  · rw [hEqn]
  · rw [hEqn]
    rfl
  · rw [hEqn]
    show lookupA [(wadd 1 1, 2)] (wadd fabS.curr_gen 2) = none
    decide
  · refine ⟨⟨0, 0⟩, ?_, ?_⟩
    · rw [hEqn]
      exact hd4
    · rw [hEqn]
      intro g i h
      obtain ⟨_, h2⟩ := lookupA_singleton _ g _ i h
      rw [h2]
      decide

/-- C1: failing input for the reopen round-trip.  After the buggy oversized
compaction, a subsequent `set` is visible to `get` in memory and indexed
under the active generation — but that generation has no file on disk (its
bytes sit in an unlinked inode), so a reopen, which replays only linked
files, cannot reconstruct it: the round-trip property fails. -/
theorem lost_write_after_oversized_clean :
    getVal (setOp (cleanOp fabS fabFs).1 (cleanOp fabS fabFs).2.1 "k" "v").1
      (setOp (cleanOp fabS fabFs).1 (cleanOp fabS fabFs).2.1 "k" "v").2.1 "k"
      = Except.ok (some "v") ∧
    lookupA (setOp (cleanOp fabS fabFs).1 (cleanOp fabS fabFs).2.1 "k" "v").1.index
      "k" = some ⟨wadd fabS.curr_gen 2, 0, (encodeC (Command.Set "k" "v")).length⟩ ∧
    lookupA (setOp (cleanOp fabS fabFs).1 (cleanOp fabS fabFs).2.1 "k" "v").2.1.links
      (wadd fabS.curr_gen 2) = none := by
  obtain ⟨index2, descs2, inodes2, hkeys, hEqn, hd4, hi0⟩ := cleanOp_fab
  rw [hEqn]
  have hk_none : lookupA index2 "k" = none := by
    apply lookupA_eq_none_of_not_mem
    rw [hkeys]
    decide
  have hstep : setOp { index := index2, readers := [(wadd 1 1, 3), (wadd 1 2, 4)], writerDesc := 4, curr_gen := wadd 1 2, stale_bytes := 0 } { inodes := inodes2, descs := insertA descs2 4 ⟨0, 0⟩, links := [(wadd 1 1, 2)], nextId := 5 } "k" "v" = ({ index := insertA index2 "k" ⟨wadd 1 2, 0, (encodeC (Command.Set "k" "v")).length⟩, readers := [(wadd 1 1, 3), (wadd 1 2, 4)], writerDesc := 4, curr_gen := wadd 1 2, stale_bytes := 0 }, { inodes := insertA inodes2 0 (writeAt (List.replicate bigN 'a') 0 (encodeC (Command.Set "k" "v"))), descs := insertA (insertA descs2 4 ⟨0, 0⟩) 4 ⟨0, 0 + (encodeC (Command.Set "k" "v")).length⟩, links := [(wadd 1 1, 2)], nextId := 5 }, Except.ok ()) := by
    simp only [setOp, hd4, hi0, hk_none]
    rw [if_neg (by decide)]
    rfl
  rw [hstep]
  have hK : lookupA (insertA index2 "k" (⟨wadd 1 2, 0,
      (encodeC (Command.Set "k" "v")).length⟩ : CommandPointer)) "k" =
      some ⟨wadd 1 2, 0, (encodeC (Command.Set "k" "v")).length⟩ := by
    rw [lookupA_insertA, if_pos rfl]
  refine ⟨?_, ?_, ?_⟩
  · have hR : lookupA [(wadd 1 1, 3), (wadd 1 2, 4)] (wadd 1 2) = some 4 := by decide
    have hD1 : lookupA (insertA (insertA descs2 4 ⟨0, 0⟩) 4
        ⟨0, 0 + (encodeC (Command.Set "k" "v")).length⟩) 4 =
        some ⟨0, 0 + (encodeC (Command.Set "k" "v")).length⟩ := by
      rw [lookupA_insertA, if_pos rfl]
    have hwa : writeAt (List.replicate bigN 'a') 0 (encodeC (Command.Set "k" "v")) =
        encodeC (Command.Set "k" "v") ++
          (List.replicate bigN 'a').drop (encodeC (Command.Set "k" "v")).length := by
      simp [writeAt]
    have hI1 : lookupA (insertA inodes2 0 (writeAt (List.replicate bigN 'a') 0
        (encodeC (Command.Set "k" "v")))) 0 =
        some (encodeC (Command.Set "k" "v") ++
          (List.replicate bigN 'a').drop (encodeC (Command.Set "k" "v")).length) := by
      rw [lookupA_insertA, if_pos rfl, hwa]
    have hbytes : readRange (encodeC (Command.Set "k" "v") ++
        (List.replicate bigN 'a').drop (encodeC (Command.Set "k" "v")).length) 0
        (encodeC (Command.Set "k" "v")).length = encodeC (Command.Set "k" "v") := by
      rw [readRange]
      simp [List.take_left]
    simp only [getVal, getOp, hK, hR, hD1, hI1, hbytes]
    rw [show parseCommand (encodeC (Command.Set "k" "v")) =
      some (Command.Set "k" "v", []) from by decide]
  · exact hK
  · show lookupA [(wadd 1 1, 2)] (wadd fabS.curr_gen 2) = none
    decide

/-! Claim C9: generation listing. -/

/-- C9, counterexample: the claim says `list_generations` returns exactly the
generations of files named `<integer>.log`, but `trim_end_matches(".log")`
strips every trailing `.log`, so the file `1.log.log` (not of that form)
yields generation 1. -/
theorem getGenerationList_cex :
    getGenerationList [⟨"1.log.log", true⟩] = [1] ∧
    canonicalGens [⟨"1.log.log", true⟩] = [] ∧
    getGenerationList [⟨"1.log.log", true⟩] ≠ canonicalGens [⟨"1.log.log", true⟩] := by
  decide

/-- C9, amended: `get_generation_list` returns, in ascending order, exactly
the numbers obtained from file entries whose `Path::extension` is `log` and
whose full name, after stripping every trailing `.log`, parses as a `usize`
(so `1.log.log` counts as generation 1, and `007.log` as generation 7);
every other entry is ignored without error. -/
theorem getGenerationList_amended (entries : List DirEntry) :
    (getGenerationList entries).Sorted (· ≤ ·) ∧
    ∀ n, n ∈ getGenerationList entries ↔
      ∃ e ∈ entries, e.isFile = true ∧ pathExt e.name.data = some "log".data ∧
        parseUsize (String.mk (trimEndLog e.name.data)) = some n := by
  constructor
  · exact sorted_sortIns _
  · intro n
    rw [getGenerationList, mem_sortIns, List.mem_filterMap]
    constructor
    · rintro ⟨e, he, hp⟩
      rw [List.mem_filter] at he
      obtain ⟨he, hcond⟩ := he
      rw [Bool.and_eq_true, decide_eq_true_iff] at hcond
      exact ⟨e, he, hcond.1, hcond.2, hp⟩
    · rintro ⟨e, he, hfile, hext, hp⟩
      refine ⟨e, ?_, hp⟩
      rw [List.mem_filter, Bool.and_eq_true, decide_eq_true_iff]
      exact ⟨he, hfile, hext⟩

/-- C9, witness for the amended theorem at a concrete directory. -/
theorem getGenerationList_amended_witness :
    (getGenerationList [⟨"007.log", true⟩, ⟨"junk.txt", true⟩]).Sorted (· ≤ ·) ∧
    7 ∈ getGenerationList [⟨"007.log", true⟩, ⟨"junk.txt", true⟩] := by
  refine ⟨(getGenerationList_amended _).1, ?_⟩
  refine ((getGenerationList_amended _).2 7).mpr ⟨⟨"007.log", true⟩, by decide, by decide,
    by decide, by decide⟩

/-! Claim C2: remove. -/

/-- C2, counterexample: after `set "a" "1"` on a fresh store, `remove "a"`
leaves the stale counter at exactly the old pointer's length (17); the claim
demands the old pointer's length plus the tombstone's length (17 + 14). -/
theorem remove_tombstone_uncounted_cex :
    (removeOp (stepOf (setOp st0 fs0 "a" "1")).1 (stepOf (setOp st0 fs0 "a" "1")).2
        "a").1.stale_bytes = (encodeC (Command.Set "a" "1")).length ∧
    (removeOp (stepOf (setOp st0 fs0 "a" "1")).1 (stepOf (setOp st0 fs0 "a" "1")).2
        "a").2.2 = Except.ok true ∧
    (encodeC (Command.Set "a" "1")).length = 17 ∧
    (encodeC (Command.Remove "a")).length = 14 ∧
    (encodeC (Command.Set "a" "1")).length ≠
      (encodeC (Command.Set "a" "1")).length + (encodeC (Command.Remove "a")).length := by
  decide

/-- C2, amended: `remove` appends a `Remove` record to the active writer
unconditionally.  If the key was present it returns `true` and adds ONLY the
old pointer's length to the stale counter (the tombstone's own length is not
counted until a later replay), compacting when the counter exceeds the
threshold; if the key was absent it returns `false`, the store value is
unchanged, and the appended tombstone is left on disk. -/
theorem remove_amended :
    (∀ s fs k dsc content, lookupA fs.descs s.writerDesc = some dsc →
      lookupA fs.inodes dsc.inode = some content → lookupA s.index k = none →
      removeOp s fs k =
        (s, writeThrough fs s.writerDesc dsc content (encodeC (Command.Remove k)),
          Except.ok false)) ∧
    (∀ s fs k dsc content old, lookupA fs.descs s.writerDesc = some dsc →
      lookupA fs.inodes dsc.inode = some content → lookupA s.index k = some old →
      s.stale_bytes + old.length ≤ SIZE_THRESHOLD →
      removeOp s fs k =
        ({ s with index := eraseA s.index k, stale_bytes := s.stale_bytes + old.length },
          writeThrough fs s.writerDesc dsc content (encodeC (Command.Remove k)),
          Except.ok true)) ∧
    (∀ s fs k dsc content old, lookupA fs.descs s.writerDesc = some dsc →
      lookupA fs.inodes dsc.inode = some content → lookupA s.index k = some old →
      s.stale_bytes + old.length > SIZE_THRESHOLD →
      removeOp s fs k =
        (let s1 : KvStore :=
          { s with index := eraseA s.index k, stale_bytes := s.stale_bytes + old.length }
         let fs1 :=
          writeThrough fs s.writerDesc dsc content (encodeC (Command.Remove k))
         ((cleanOp s1 fs1).1, (cleanOp s1 fs1).2.1,
           Except.map (fun _ => true) (cleanOp s1 fs1).2.2))) := by
  refine ⟨?_, ?_, ?_⟩
  · intro s fs k dsc content hd hi hn
    simp [removeOp, hd, hi, hn]
  · intro s fs k dsc content old hd hi ho hle
    simp [removeOp, hd, hi, ho, Nat.not_lt.mpr hle]
  · intro s fs k dsc content old hd hi ho hgt
    simp only [removeOp, hd, hi, ho, if_pos hgt]
    rcases hc : cleanOp
        { s with index := eraseA s.index k, stale_bytes := s.stale_bytes + old.length }
        (writeThrough fs s.writerDesc dsc content (encodeC (Command.Remove k))) with
      ⟨s2, fs2, r⟩
    cases r <;> simp [hc, Except.map]

/-- C2, witness for the amended theorem: the present-key case at the
concrete set-then-remove run. -/
theorem remove_amended_witness :
    (removeOp (stepOf (setOp st0 fs0 "a" "1")).1 (stepOf (setOp st0 fs0 "a" "1")).2
        "a").2.2 = Except.ok true ∧
    (removeOp (stepOf (setOp st0 fs0 "a" "1")).1 (stepOf (setOp st0 fs0 "a" "1")).2
        "a").1.stale_bytes = 17 := by
  have h := remove_amended.2.1 (stepOf (setOp st0 fs0 "a" "1")).1
    (stepOf (setOp st0 fs0 "a" "1")).2 "a" ⟨0, 17⟩
    (encodeC (Command.Set "a" "1")) ⟨1, 0, 17⟩ (by decide) (by decide) (by decide)
    (by decide)
  rw [h]
  exact ⟨rfl, by decide⟩

/-! Claim C8: absent key. -/

/-- C8, counterexample: `remove` of an absent key returns `false` but does
change the on-disk contents: the tombstone is appended to the active file
(the claim asserts on-disk contents remain unchanged). -/
theorem absent_remove_disk_changed_cex :
    (removeOp st0 fs0 "missing").2.2 = Except.ok false ∧
    (removeOp st0 fs0 "missing").2.1 ≠ fs0 ∧
    lookupA (removeOp st0 fs0 "missing").2.1.inodes 0 =
      some (encodeC (Command.Remove "missing")) := by
  decide

/-- C8, amended: for a key absent from the index, `get` returns `None`
without touching anything (store and filesystem unchanged), and `remove`
returns `false` leaving the store value — index, stale counter, active
generation, readers — unchanged; the only effect of `remove` is the
tombstone record written through the active writer. -/
theorem absent_key_amended :
    (∀ s fs k, lookupA s.index k = none → getOp s fs k = (s, fs, Except.ok none)) ∧
    (∀ s fs k dsc content, lookupA fs.descs s.writerDesc = some dsc →
      lookupA fs.inodes dsc.inode = some content → lookupA s.index k = none →
      removeOp s fs k =
        (s, writeThrough fs s.writerDesc dsc content (encodeC (Command.Remove k)),
          Except.ok false)) := by
  constructor
  · intro s fs k hn
    simp [getOp, hn]
  · intro s fs k dsc content hd hi hn
    simp [removeOp, hd, hi, hn]

/-- C8, witness: the amended theorem applied on a fresh store. -/
theorem absent_key_amended_witness :
    getOp st0 fs0 "missing" = (st0, fs0, Except.ok none) ∧
    (removeOp st0 fs0 "missing").2.2 = Except.ok false ∧
    (removeOp st0 fs0 "missing").1 = st0 := by
  have h1 := absent_key_amended.1 st0 fs0 "missing" (by decide)
  have h2 := absent_key_amended.2 st0 fs0 "missing" ⟨0, 0⟩ [] (by decide) (by decide)
    (by decide)
  rw [h1, h2]
  exact ⟨rfl, rfl, rfl⟩

/-! Claim C5: set. -/

/-- C5: `set` appends one `Set` record through the active writer, indexes
the pointer `(active generation, start = writer position, length =
position delta = encoded length)`, adds a superseded pointer's length to
the stale counter, and runs compaction before returning exactly when the
counter exceeds the threshold.  Consequently `set k "a"; set k "b"` makes
`get k` return `Some "b"`. -/
theorem set_spec :
    (∀ s fs k v dsc content, lookupA fs.descs s.writerDesc = some dsc →
      lookupA fs.inodes dsc.inode = some content →
      s.stale_bytes + (match lookupA s.index k with | some o => o.length | none => 0)
          ≤ SIZE_THRESHOLD →
      setOp s fs k v =
        ({ s with
            index := insertA s.index k
              ⟨s.curr_gen, dsc.off, (encodeC (Command.Set k v)).length⟩,
            stale_bytes := s.stale_bytes +
              (match lookupA s.index k with | some o => o.length | none => 0) },
          writeThrough fs s.writerDesc dsc content (encodeC (Command.Set k v)),
          Except.ok ())) ∧
    (∀ s fs k v dsc content, lookupA fs.descs s.writerDesc = some dsc →
      lookupA fs.inodes dsc.inode = some content →
      s.stale_bytes + (match lookupA s.index k with | some o => o.length | none => 0)
          > SIZE_THRESHOLD →
      setOp s fs k v =
        (let s1 : KvStore :=
          { s with
            index := insertA s.index k
              ⟨s.curr_gen, dsc.off, (encodeC (Command.Set k v)).length⟩,
            stale_bytes := s.stale_bytes +
              (match lookupA s.index k with | some o => o.length | none => 0) }
         let fs1 := writeThrough fs s.writerDesc dsc content (encodeC (Command.Set k v))
         ((cleanOp s1 fs1).1, (cleanOp s1 fs1).2.1,
           Except.map (fun _ => ()) (cleanOp s1 fs1).2.2))) ∧
    getVal (stepOf (setOp (stepOf (setOp st0 fs0 "k" "a")).1
        (stepOf (setOp st0 fs0 "k" "a")).2 "k" "b")).1
      (stepOf (setOp (stepOf (setOp st0 fs0 "k" "a")).1
        (stepOf (setOp st0 fs0 "k" "a")).2 "k" "b")).2 "k" = Except.ok (some "b") := by
  refine ⟨?_, ?_, by decide⟩
  · intro s fs k v dsc content hd hi hle
    simp [setOp, hd, hi, Nat.not_lt.mpr hle, Nat.add_sub_cancel_left]
  · intro s fs k v dsc content hd hi hgt
    simp only [setOp, hd, hi, Nat.add_sub_cancel_left, if_pos hgt]
    rcases hc : cleanOp
        { s with
          index := insertA s.index k
            ⟨s.curr_gen, dsc.off, (encodeC (Command.Set k v)).length⟩,
          stale_bytes := s.stale_bytes +
            (match lookupA s.index k with | some o => o.length | none => 0) }
        (writeThrough fs s.writerDesc dsc content (encodeC (Command.Set k v))) with
      ⟨s2, fs2, r⟩
    cases r <;> simp [hc, Except.map]

/-- C5, witness: the non-compacting case of `set_spec` applied on a fresh
store, plus its concrete conclusions. -/
theorem set_spec_witness :
    (setOp st0 fs0 "k" "a").2.2 = Except.ok () ∧
    (setOp st0 fs0 "k" "a").1.index = [("k", ⟨1, 0, 17⟩)] ∧
    (setOp st0 fs0 "k" "a").1.stale_bytes = 0 := by
  have h := set_spec.1 st0 fs0 "k" "a" ⟨0, 0⟩ [] (by decide) (by decide) (by decide)
  rw [h]
  exact ⟨rfl, by decide, by decide⟩

/-! Claim C6: active-generation selection in open. -/

/-- C6: `open` picks the active generation by the rule: none exist, use 1;
the last (highest) generation's file size is at or below the threshold,
reuse it; otherwise use one past the last.  The store returned by a
successful `open` carries exactly the generation this rule selects, so
writing until the active segment exceeds the threshold makes the next
`open` start a new generation. -/
theorem open_active_gen :
    (∀ fs s fs', openOp fs = Except.ok (s, fs') →
      chooseCurrGen fs = Except.ok s.curr_gen) ∧
    (∀ fs, keysA fs.links = [] → chooseCurrGen fs = Except.ok 1) ∧
    (∀ fs g i content, (sortIns (keysA fs.links)).getLast? = some g →
      lookupA fs.links g = some i → lookupA fs.inodes i = some content →
      content.length ≤ SIZE_THRESHOLD → chooseCurrGen fs = Except.ok g) ∧
    (∀ fs g i content, (sortIns (keysA fs.links)).getLast? = some g →
      lookupA fs.links g = some i → lookupA fs.inodes i = some content →
      content.length > SIZE_THRESHOLD → g + 1 < USIZE →
      chooseCurrGen fs = Except.ok (g + 1)) := by
  refine ⟨?_, ?_, ?_, ?_⟩
  · intro fs s fs' h
    simp only [openOp] at h
    cases hc : chooseCurrGen fs with
    | error e => rw [hc] at h; cases h
    | ok curr =>
      rw [hc] at h
      cases ho : openFold fs (sortIns (keysA fs.links)) [] [] 0 with
      | error e => rw [ho] at h; cases h
      | ok r =>
        rw [ho] at h
        cases h
        rfl
  · intro fs h
    simp [chooseCurrGen, h, sortIns]
  · intro fs g i content hlast hlink hinode hle
    simp [chooseCurrGen, hlast, hlink, hinode, hle]
  · intro fs g i content hlast hlink hinode hgt hlt
    simp only [chooseCurrGen, hlast, hlink, hinode]
    rw [if_neg (Nat.not_le.mpr hgt)]
    rw [show wadd g 1 = g + 1 from Nat.mod_eq_of_lt hlt]

/-- C6, witness: all three selection cases at concrete directories, and the
open-result case on the fresh directory. -/
theorem open_active_gen_witness :
    chooseCurrGen emptyFs = Except.ok 1 ∧
    chooseCurrGen ⟨[(0, [])], [], [(5, 0)], 1⟩ = Except.ok 5 ∧
    chooseCurrGen ⟨[(0, List.replicate bigN 'a')], [], [(5, 0)], 1⟩ = Except.ok 6 ∧
    chooseCurrGen emptyFs = Except.ok st0.curr_gen := by
  refine ⟨open_active_gen.2.1 emptyFs (by decide), ?_, ?_, ?_⟩
  · exact open_active_gen.2.2.1 ⟨[(0, [])], [], [(5, 0)], 1⟩ 5 0 [] (by decide)
      (by decide) (by decide) (by decide)
  · exact open_active_gen.2.2.2 ⟨[(0, List.replicate bigN 'a')], [], [(5, 0)], 1⟩ 5 0
      (List.replicate bigN 'a') (by decide) rfl rfl
      (by rw [List.length_replicate]; decide) (by decide)
  · exact open_active_gen.1 emptyFs st0 fs0 (by decide)

/-! Claim C10: the stale counter is bounded after every successful write. -/

theorem cleanOp_ok_stale (s : KvStore) (fs : Fs) (s' : KvStore) (fs' : Fs) (n : Nat)
    (h : cleanOp s fs = (s', fs', Except.ok n)) :
    s'.stale_bytes = 0 ∧ n = s.stale_bytes := by
  simp only [cleanOp] at h
  repeat' split at h
  all_goals simp only [Prod.mk.injEq] at h
  all_goals obtain ⟨hs, h2, hr⟩ := h
  all_goals cases hr
  all_goals exact ⟨by rw [← hs], rfl⟩

/-- C10, counterexample: the claim asserts the stale counter is at most the
threshold after every successful `set`, `remove` or `clean_stale_data`, but
`remove` of an absent key never consults the threshold (the check sits in
the present-key branch only), so with the counter above the threshold —
which the claim itself grants `open` can produce, since replay counts
tombstone bytes that the in-session `remove` never counted — a successful
`remove` returning `false` leaves it above the threshold. -/
theorem stale_unbounded_absent_remove_cex :
    (removeOp ⟨[], [(1, 1)], 1, 1, 2097152⟩ fs0 "x").2.2 = Except.ok false ∧
    (removeOp ⟨[], [(1, 1)], 1, 1, 2097152⟩ fs0 "x").1.stale_bytes = 2097152 ∧
    ¬(2097152 ≤ SIZE_THRESHOLD) := by
  decide

/-- C10, amended: after every successful `set`, every successful `remove`
that returns `true`, and every successful `clean_stale_data`, the stale
counter is at most the size threshold (compaction runs before returning
whenever the counter exceeds it, and resets it to zero); a successful
`remove` that returns `false` leaves the counter unchanged, so it can stay
above the threshold when `open`'s replay left it there. -/
theorem stale_bounded_after_ops :
    (∀ s fs k v s' fs', setOp s fs k v = (s', fs', Except.ok ()) →
      s'.stale_bytes ≤ SIZE_THRESHOLD) ∧
    (∀ s fs k s' fs', removeOp s fs k = (s', fs', Except.ok true) →
      s'.stale_bytes ≤ SIZE_THRESHOLD) ∧
    (∀ s fs k s' fs', removeOp s fs k = (s', fs', Except.ok false) →
      s'.stale_bytes = s.stale_bytes) ∧
    (∀ s fs s' fs' n, cleanOp s fs = (s', fs', Except.ok n) →
      s'.stale_bytes = 0) := by
  refine ⟨?_, ?_, ?_, ?_⟩
  · intro s fs k v s' fs' h
    simp only [setOp] at h
    repeat' split at h
    all_goals simp only [Prod.mk.injEq] at h
    all_goals obtain ⟨hs, h2, hr⟩ := h
    all_goals cases hr
    all_goals
      first
        | (rename_i hclean
           rw [← hs, (cleanOp_ok_stale _ _ _ _ _ hclean).1]
           exact Nat.zero_le _)
        | (rw [← hs]; simp_all)
  · intro s fs k s' fs' h
    simp only [removeOp] at h
    repeat' split at h
    all_goals simp only [Prod.mk.injEq] at h
    all_goals obtain ⟨hs, h2, hr⟩ := h
    all_goals cases hr
    all_goals
      first
        | (rename_i hclean
           rw [← hs, (cleanOp_ok_stale _ _ _ _ _ hclean).1]
           exact Nat.zero_le _)
        | (rw [← hs]; simp_all)
  · intro s fs k s' fs' h
    simp only [removeOp] at h
    repeat' split at h
    all_goals simp only [Prod.mk.injEq] at h
    all_goals obtain ⟨hs, h2, hr⟩ := h
    all_goals cases hr
    all_goals rw [← hs]
  · intro s fs s' fs' n h
    exact (cleanOp_ok_stale _ _ _ _ _ h).1

/-- C10, witness: concrete successful `set`, both `remove` outcomes, and a
compaction, each through the amended theorem. -/
theorem stale_bounded_after_ops_witness :
    (setOp st0 fs0 "k" "a").1.stale_bytes ≤ SIZE_THRESHOLD ∧
    (removeOp (stepOf (setOp st0 fs0 "k" "a")).1 (stepOf (setOp st0 fs0 "k" "a")).2
      "k").1.stale_bytes ≤ SIZE_THRESHOLD ∧
    (removeOp st0 fs0 "x").1.stale_bytes = st0.stale_bytes ∧
    (cleanOp st0 fs0).1.stale_bytes = 0 := by
  refine ⟨?_, ?_, ?_, ?_⟩
  · exact stale_bounded_after_ops.1 st0 fs0 "k" "a" (setOp st0 fs0 "k" "a").1
      (setOp st0 fs0 "k" "a").2.1 (by decide)
  · exact stale_bounded_after_ops.2.1 (stepOf (setOp st0 fs0 "k" "a")).1
      (stepOf (setOp st0 fs0 "k" "a")).2 "k"
      (removeOp (stepOf (setOp st0 fs0 "k" "a")).1
        (stepOf (setOp st0 fs0 "k" "a")).2 "k").1
      (removeOp (stepOf (setOp st0 fs0 "k" "a")).1
        (stepOf (setOp st0 fs0 "k" "a")).2 "k").2.1 (by decide)
  · exact stale_bounded_after_ops.2.2.1 st0 fs0 "x" (removeOp st0 fs0 "x").1
      (removeOp st0 fs0 "x").2.1 (by decide)
  · exact stale_bounded_after_ops.2.2.2 st0 fs0 (cleanOp st0 fs0).1
      (cleanOp st0 fs0).2.1 0 (by decide)

end Kvs
